import Mathlib

/-!
# erengy::basic_string_view

A shallow embedding of `string_view.hpp`.

* Storage is a map from addresses to code units (`Mem`); a view is the pair
  `(data_, size_)` of the class, a start address and a count.
* `size_type` is a 64-bit unsigned integer, so `npos = 2^64 - 1`.
* Functions that `throw std::out_of_range` return `Except Exception _`.
* The character-traits policy of the class template is a parameter
  (`traits_compare`); the algorithms of the standard library that the header
  calls (`std::search`, `std::find_end`, `std::find_if`, `std::find`,
  `std::find_first_of`) are embedded as the loops the C++ standard describes,
  `std::copy_n` as the `memmove` it is for character types; `std::min` is `min`.
* A reverse iterator is given by its `base()`, an integer address.
-/

namespace erengy

/-- Storage: the code unit stored at every address. -/
abbrev Mem (α : Type) := Nat → α

/-- The two data members of `basic_string_view`: `data_` and `size_`. -/
structure basic_string_view where
  data_ : Nat
  size_ : Nat
deriving DecidableEq, Repr

/-- The exception thrown by the checked operations. -/
inductive Exception where
  | out_of_range
deriving DecidableEq, Repr

/-- Source: `static constexpr size_type npos = size_type(-1);` -/
def npos : Nat := 2 ^ 64 - 1

namespace basic_string_view

/-- Source: `basic_string_view() : data_(nullptr), size_(0)` -/
def empty_view : basic_string_view := { data_ := 0, size_ := 0 }

/-- Source: `basic_string_view(const_pointer str, size_type len) : data_(str), size_(len)` -/
def of_ptr_len (str len : Nat) : basic_string_view := { data_ := str, size_ := len }

/-- Source: `cbegin() { return data_; }` -/
def cbegin (a : basic_string_view) : Nat := a.data_

/-- Source: `size() { return size_; }` -/
def size (a : basic_string_view) : Nat := a.size_

/-- Source: `cend() { return cbegin() + size(); }` -/
def cend (a : basic_string_view) : Nat := a.cbegin + a.size

/-- Source: `begin() { return cbegin(); }` -/
def begin (a : basic_string_view) : Nat := a.cbegin

/-- Source: `end() { return cend(); }` -/
def end_ (a : basic_string_view) : Nat := a.cend

/-- Source: `data() { return data_; }` -/
def data (a : basic_string_view) : Nat := a.data_

/-- Source: `empty() { return size_ == 0; }` -/
def empty (a : basic_string_view) : Bool := a.size_ == 0

/-- Source: `operator[](pos) { return data_[pos]; }` (requires `pos < size()`, unchecked). -/
def index {α : Type} (mem : Mem α) (a : basic_string_view) (pos : Nat) : α :=
  mem (a.data_ + pos)

/-- Source: `at(pos)`: throws when `pos >= size()`, otherwise `data_[pos]`. -/
def at_ {α : Type} (mem : Mem α) (a : basic_string_view) (pos : Nat) : Except Exception α :=
  if pos ≥ a.size then Except.error Exception.out_of_range
  else Except.ok (mem (a.data_ + pos))

/-- Source: `substr(pos, n)`: throws when `pos > size()`, otherwise
`basic_string_view(data() + pos, std::min(n, size() - pos))`. -/
def substr (a : basic_string_view) (pos n : Nat) : Except Exception basic_string_view :=
  if pos > a.size then Except.error Exception.out_of_range
  else Except.ok (of_ptr_len (a.data + pos) (min n (a.size - pos)))

/-- Source: `compare(str)`, with the `traits::compare` of the class template as the
parameter `traits_compare`:
`rlen = min(size(), str.size()); result = traits::compare(data(), str.data(), rlen);`
`if (result == 0) result = size() == str.size() ? 0 : (size() < str.size() ? -1 : 1);` -/
def compare {α : Type} (traits_compare : Mem α → Nat → Nat → Nat → Int) (mem : Mem α)
    (a str : basic_string_view) : Int :=
  let rlen := min a.size str.size
  let result := traits_compare mem a.data str.data rlen
  if result = 0 then
    (if a.size = str.size then 0 else (if a.size < str.size then -1 else 1))
  else result

end basic_string_view

open basic_string_view

/-- Source: `operator==(lhs, rhs) { return lhs.compare(rhs) == 0; }` -/
def op_eq {α : Type} (tc : Mem α → Nat → Nat → Nat → Int) (mem : Mem α)
    (lhs rhs : basic_string_view) : Bool :=
  decide (compare tc mem lhs rhs = 0)

/-- Source: `operator!=(lhs, rhs) { return lhs.compare(rhs) != 0; }` -/
def op_ne {α : Type} (tc : Mem α → Nat → Nat → Nat → Int) (mem : Mem α)
    (lhs rhs : basic_string_view) : Bool :=
  decide (compare tc mem lhs rhs ≠ 0)

/-- Source: `operator<(lhs, rhs) { return lhs.compare(rhs) < 0; }` -/
def op_lt {α : Type} (tc : Mem α → Nat → Nat → Nat → Int) (mem : Mem α)
    (lhs rhs : basic_string_view) : Bool :=
  decide (compare tc mem lhs rhs < 0)

/-- Source: `operator>(lhs, rhs) { return lhs.compare(rhs) > 0; }` -/
def op_gt {α : Type} (tc : Mem α → Nat → Nat → Nat → Int) (mem : Mem α)
    (lhs rhs : basic_string_view) : Bool :=
  decide (compare tc mem lhs rhs > 0)

/-- Source: `operator<=(lhs, rhs) { return lhs.compare(rhs) <= 0; }` -/
def op_le {α : Type} (tc : Mem α → Nat → Nat → Nat → Int) (mem : Mem α)
    (lhs rhs : basic_string_view) : Bool :=
  decide (compare tc mem lhs rhs ≤ 0)

/-- Source: `operator>=(lhs, rhs) { return lhs.compare(rhs) >= 0; }` -/
def op_ge {α : Type} (tc : Mem α → Nat → Nat → Nat → Int) (mem : Mem α)
    (lhs rhs : basic_string_view) : Bool :=
  decide (compare tc mem lhs rhs ≥ 0)

/-- Modelled from the spec: the units `*(first + i)` for `i` in `[0, count)`,
read before anything is written. -/
def read_units {α : Type} (mem : Mem α) : Nat → Nat → List α
  | _, 0 => []
  | first, count + 1 => mem first :: read_units mem (first + 1) count

/-- Modelled from the spec: the assignments `*(result + i) = units[i]`. -/
def write_units {α : Type} (mem : Mem α) : Nat → List α → Mem α
  | _, [] => mem
  | result, c :: cs =>
    write_units (fun addr => if addr = result then c else mem addr) (result + 1) cs

/-- Modelled from the spec: `std::copy_n(first, count, result)` of the standard
library, which the header calls and does not define: for each `i` in
`[0, count)` it performs `*(result + i) = *(first + i)`. For character types
the library does this with `memmove`, which copies as if through a temporary
array: every unit written is the source unit as it was before the call, also
when the two ranges overlap. -/
def copy_n {α : Type} (mem : Mem α) (first count result : Nat) : Mem α :=
  write_units mem result (read_units mem first count)

/-- Source: `copy(s, n, pos)`: throws when `pos > size()`, otherwise
`rlen = std::min(n, size() - pos); std::copy_n(begin() + pos, rlen, s); return rlen;`.
The result is the storage after the call together with the returned count. -/
def basic_string_view.copy {α : Type} (mem : Mem α) (a : basic_string_view) (s n pos : Nat) :
    Except Exception (Mem α × Nat) :=
  if pos > a.size then Except.error Exception.out_of_range
  else
    let rlen := min n (a.size - pos)
    Except.ok (copy_n mem (a.begin + pos) rlen s, rlen)

/-- How one pass of the inner loop of `std::search` ends. -/
inductive search_step where
  | found
  | hit_last
  | mismatch
deriving DecidableEq, Repr

/-- Modelled from the spec: the inner loop of `std::search`, which the header
calls and does not define. With `it` in the text and `s_it` in the pattern,
`k` units of the pattern left:
`if (s_it == s_last) return first; if (it == last) return last;`
`if (!(*it == *s_it)) break;` and then `++it, ++s_it`. -/
def search_inner {α : Type} [DecidableEq α] (mem : Mem α) (last : Nat) :
    Nat → Nat → Nat → search_step
  | _, _, 0 => search_step.found
  | it, s_it, k + 1 =>
    if it = last then search_step.hit_last
    else if mem it ≠ mem s_it then search_step.mismatch
    else search_inner mem last (it + 1) (s_it + 1) k

/-- Modelled from the spec: the outer loop of `std::search`: try the pattern at
`first`, and on a mismatch `++first`. The loop has no exit of its own; `none`
stands for a scan that did not stop within `fuel` passes. -/
def search_outer {α : Type} [DecidableEq α] (mem : Mem α) (last s_first count : Nat) :
    Nat → Nat → Option Nat
  | 0, _ => none
  | fuel + 1, first =>
    match search_inner mem last first s_first count with
    | search_step.found => some first
    | search_step.hit_last => some last
    | search_step.mismatch => search_outer mem last s_first count fuel (first + 1)

/-- Modelled from the spec: `std::search(first, last, s_first, s_last)`: the
start of the first occurrence of `[s_first, s_last)` in `[first, last)`, `last`
when there is none, `first` when the pattern is empty. A range of `last - first`
units needs at most `last - first + 1` passes. -/
def search {α : Type} [DecidableEq α] (mem : Mem α) (first last s_first s_last : Nat) :
    Option Nat :=
  search_outer mem last s_first (s_last - s_first) (last - first + 1) first

/-- Source: `find(s, pos)`:
`it = std::search(begin() + pos, end(), s.begin(), s.end());`
`return it != end() ? std::distance(begin(), it) : npos;` -/
def basic_string_view.find {α : Type} [DecidableEq α] (mem : Mem α)
    (a s : basic_string_view) (pos : Nat) : Option Nat :=
  (search mem (a.begin + pos) a.end_ s.begin s.end_).map
    (fun it => if it ≠ a.end_ then it - a.begin else npos)

/-- The test `a.substr(i, p.size()) == p`: the `substr` call returns a view
and `operator==` holds between that view and `p`. -/
def substr_equals {α : Type} (tc : Mem α → Nat → Nat → Nat → Int) (mem : Mem α)
    (a p : basic_string_view) (i : Nat) : Prop :=
  ∃ v, substr a i p.size = Except.ok v ∧ op_eq tc mem v p = true

/-- Modelled from the spec: the unit-ops buffer-compare function
(`std::char_traits<charT>::compare`, the default `traits` of the class
template), which the header uses and does not define. It walks the two buffers
for `n` units and stops at the first index where the units differ. -/
def char_traits_compare {α : Type} [LinearOrder α] (mem : Mem α) :
    Nat → Nat → Nat → Int
  | _, _, 0 => 0
  | s1, s2, n + 1 =>
    if mem s1 < mem s2 then -1
    else if mem s2 < mem s1 then 1
    else char_traits_compare mem (s1 + 1) (s2 + 1) n

/-- The assumption on the unit-ops buffer-compare: its sign is that of the
lexicographic comparison of the first `n` code units of the two buffers. -/
def lexicographic {α : Type} [LinearOrder α] (tc : Mem α → Nat → Nat → Nat → Int) : Prop :=
  ∀ (mem : Mem α) (p q n : Nat),
    (tc mem p q n < 0 ↔
      ∃ k, k < n ∧ (∀ j, j < k → mem (p + j) = mem (q + j)) ∧ mem (p + k) < mem (q + k)) ∧
    (0 < tc mem p q n ↔
      ∃ k, k < n ∧ (∀ j, j < k → mem (p + j) = mem (q + j)) ∧ mem (q + k) < mem (p + k))

/-- Storage holding the units of `l` from address 0 on, and `d` elsewhere. -/
def mem_of {α : Type} (l : List α) (d : α) : Mem α := fun i => l.getD i d

/-- The code units a view denotes, in order. -/
def units {α : Type} (mem : Mem α) (a : basic_string_view) : List α :=
  (List.range a.size_).map (fun i => mem (a.data_ + i))

/-- Two views denote the same sequence: same length, same unit at every index. -/
def same_units {α : Type} (mem : Mem α) (a b : basic_string_view) : Prop :=
  a.size = b.size ∧ ∀ i, i < a.size → index mem a i = index mem b i

/-- Lexicographic order with the shorter-first tie-break: `a` is a proper
prefix of `b`, or `a` has the smaller unit at the first index where they differ. -/
def lex_before {α : Type} [LinearOrder α] (mem : Mem α) (a b : basic_string_view) : Prop :=
  (a.size < b.size ∧ ∀ i, i < a.size → index mem a i = index mem b i) ∨
  ∃ k, k < a.size ∧ k < b.size ∧ (∀ j, j < k → index mem a j = index mem b j) ∧
    index mem a k < index mem b k

/-- The pattern of `m` units at address `s` occurs at address `i` and ends by `last`. -/
def occurs_at {α : Type} (mem : Mem α) (last s m i : Nat) : Prop :=
  i + m ≤ last ∧ ∀ j, j < m → mem (i + j) = mem (s + j)

/-- The units of `p` occur in `a` from index `i` on. -/
def matches_at {α : Type} (mem : Mem α) (a p : basic_string_view) (i : Nat) : Prop :=
  i + p.size ≤ a.size ∧ ∀ j, j < p.size → index mem a (i + j) = index mem p j

/-! ## Backward and character-set searches, modifiers, compare overloads -/

/-- Modelled from the spec: the loop of `std::find_end`, which the header
calls and does not define: `new_result = std::search(first, last, s_first, s_last);`
`if (new_result == last) break; else { result = new_result; first = result; ++first; }`
and `return result` after the loop. `none` stands for a scan that did not
stop within `fuel` rounds. -/
def find_end_loop {α : Type} [DecidableEq α] (mem : Mem α) (last s_first s_last : Nat) :
    Nat → Nat → Nat → Option Nat
  | 0, _, _ => none
  | fuel + 1, first, result =>
    match search mem first last s_first s_last with
    | none => none
    | some new_result =>
      if new_result = last then some result
      else find_end_loop mem last s_first s_last fuel (new_result + 1) new_result

/-- Modelled from the spec: `std::find_end(first, last, s_first, s_last)`: the
start of the last occurrence of `[s_first, s_last)` in `[first, last)`, and
`last` when there is none or when the pattern is empty
(`if (s_first == s_last) return last;`). -/
def std_find_end {α : Type} [DecidableEq α] (mem : Mem α) (first last s_first s_last : Nat) :
    Option Nat :=
  if s_first = s_last then some last
  else find_end_loop mem last s_first s_last (last - first + 1) first last

/-- Source: `rfind(s, pos)`:
`last = (pos == npos) ? end() : begin() + pos;`
`it = std::find_end(begin(), last, s.begin(), s.end());`
`return it != last ? std::distance(begin(), it) : npos;` -/
def basic_string_view.rfind {α : Type} [DecidableEq α] (mem : Mem α)
    (a s : basic_string_view) (pos : Nat) : Option Nat :=
  let last := if pos = npos then a.end_ else a.begin + pos
  (std_find_end mem a.begin last s.begin s.end_).map
    (fun it => if it ≠ last then it - a.begin else npos)

/-- Modelled from the spec: the loop `for (; first != last; ++first)` of
`std::find_if`, `k` steps before `last`: `if (p(*first)) return first;`, and
`return last` after the loop. -/
def find_if_loop {α : Type} (mem : Mem α) (p : α → Bool) : Nat → Nat → Nat
  | first, 0 => first
  | first, k + 1 => if p (mem first) then first else find_if_loop mem p (first + 1) k

/-- Modelled from the spec: `std::find_if(first, last, p)`, which the header
calls and does not define: the first position in `[first, last)` whose unit
satisfies `p`, and `last` when there is none. `none` stands for a range whose
`last` cannot be reached from `first`. -/
def std_find_if {α : Type} (mem : Mem α) (p : α → Bool) (first last : Nat) : Option Nat :=
  if first ≤ last then some (find_if_loop mem p first (last - first)) else none

/-- Modelled from the spec: `std::find(first, last, value)`: the first position
in `[first, last)` whose unit equals `value`, and `last` when there is none. -/
def std_find {α : Type} [DecidableEq α] (mem : Mem α) (first last : Nat) (value : α) :
    Option Nat :=
  std_find_if mem (fun c => decide (c = value)) first last

/-- Modelled from the spec: the inner loop of `std::find_first_of`, over the
`k` candidates from `s_it` on: `if (*first == *it) return first;`. -/
def is_one_of {α : Type} [DecidableEq α] (mem : Mem α) (c : α) : Nat → Nat → Bool
  | _, 0 => false
  | s_it, k + 1 => if c = mem s_it then true else is_one_of mem c (s_it + 1) k

/-- Modelled from the spec: `std::find_first_of(first, last, s_first, s_last)`:
the first position in `[first, last)` whose unit equals some unit of
`[s_first, s_last)`, and `last` when there is none. -/
def std_find_first_of {α : Type} [DecidableEq α] (mem : Mem α)
    (first last s_first s_last : Nat) : Option Nat :=
  std_find_if mem (fun c => is_one_of mem c s_first (s_last - s_first)) first last

/-- Source: `find_first_of(s, pos)`:
`it = std::find_first_of(begin() + pos, end(), s.begin(), s.end());`
`return it != end() ? std::distance(begin(), it) : npos;` -/
def basic_string_view.find_first_of {α : Type} [DecidableEq α] (mem : Mem α)
    (a s : basic_string_view) (pos : Nat) : Option Nat :=
  (std_find_first_of mem (a.begin + pos) a.end_ s.begin s.end_).map
    (fun it => if it ≠ a.end_ then it - a.begin else npos)

/-- Source: the lambda of the two `not_of` searches,
`[&s](const value_type& c) { return std::find(s.begin(), s.end(), c) == s.end(); }`. -/
def not_in_view {α : Type} [DecidableEq α] (mem : Mem α) (s : basic_string_view) (c : α) :
    Bool :=
  decide (std_find mem s.begin s.end_ c = some s.end_)

/-- Source: `find_first_not_of(s, pos)`:
`it = std::find_if(begin() + pos, end(), [&s](c) { ... });`
`return it != end() ? std::distance(begin(), it) : npos;` -/
def basic_string_view.find_first_not_of {α : Type} [DecidableEq α] (mem : Mem α)
    (a s : basic_string_view) (pos : Nat) : Option Nat :=
  (std_find_if mem (not_in_view mem s) (a.begin + pos) a.end_).map
    (fun it => if it ≠ a.end_ then it - a.begin else npos)

/-- Source: the conversion of a `size_type` to `difference_type` that the call
`rend() - pos` makes (64-bit two's complement): `npos` becomes `-1`. -/
def to_difference (pos : Nat) : Int :=
  if pos % 2 ^ 64 < 2 ^ 63 then ((pos % 2 ^ 64 : Nat) : Int)
  else ((pos % 2 ^ 64 : Nat) : Int) - 2 ^ 64

/-- Source: the conversion of a `difference_type` to the `size_type` that the
searches return. -/
def to_size_type (d : Int) : Nat := (d % 2 ^ 64).toNat

/-- Modelled from the spec: `std::find_if` on `std::reverse_iterator`s, each
given by its `base()`: `*it` is `*(base - 1)` and `++it` is `--base`; `k` steps
before `last`. A read below address 0 is outside the storage (`none`). -/
def find_if_reverse_loop {α : Type} (mem : Mem α) (p : α → Bool) : Int → Nat → Option Int
  | base, 0 => some base
  | base, k + 1 =>
    if base - 1 < 0 then none
    else if p (mem (base - 1).toNat) then some base
    else find_if_reverse_loop mem p (base - 1) k

/-- Modelled from the spec: `std::find_if(first, last, p)` on reverse
iterators with bases `first` and `last`; `last` is reached from `first` when
`last <= first` as addresses, otherwise the scan does not stop (`none`). -/
def std_find_if_reverse {α : Type} (mem : Mem α) (p : α → Bool) (first last : Int) :
    Option Int :=
  if last ≤ first then find_if_reverse_loop mem p first (first - last).toNat else none

/-- Modelled from the spec: `std::find_first_of(first, last, s_first, s_last)`
on reverse iterators with bases `first` and `last`. -/
def std_find_first_of_reverse {α : Type} [DecidableEq α] (mem : Mem α)
    (first last : Int) (s_first s_last : Nat) : Option Int :=
  std_find_if_reverse mem (fun c => is_one_of mem c s_first (s_last - s_first)) first last

/-- Source: `find_last_of(s, pos)`:
`it = std::find_first_of(rbegin(), rend() - pos, s.begin(), s.end());`
`return it != rend() ? std::distance(begin(), it.base()) - 1 : npos;`
with `rbegin() = reverse_iterator(cend())`, `rend() = reverse_iterator(cbegin())`
and `rend() - pos = reverse_iterator(cbegin() + pos)`. -/
def basic_string_view.find_last_of {α : Type} [DecidableEq α] (mem : Mem α)
    (a s : basic_string_view) (pos : Nat) : Option Nat :=
  (std_find_first_of_reverse mem (a.cend : Int) ((a.cbegin : Int) + to_difference pos)
      s.begin s.end_).map
    (fun it => if it ≠ (a.cbegin : Int) then to_size_type (it - (a.begin : Int) - 1) else npos)

/-- Source: `find_last_not_of(s, pos)`:
`it = std::find_if(rbegin(), rend() - pos, [&s](c) { ... });`
`return it != rend() ? std::distance(begin(), it.base()) - 1 : npos;` -/
def basic_string_view.find_last_not_of {α : Type} [DecidableEq α] (mem : Mem α)
    (a s : basic_string_view) (pos : Nat) : Option Nat :=
  (std_find_if_reverse mem (not_in_view mem s) (a.cend : Int)
      ((a.cbegin : Int) + to_difference pos)).map
    (fun it => if it ≠ (a.cbegin : Int) then to_size_type (it - (a.begin : Int) - 1) else npos)

/-- Source: `remove_prefix(n) { data_ += n; size_ -= n; }` (requires
`n <= size()`, unchecked; `size_type` arithmetic is modulo `2^64`). -/
def basic_string_view.remove_prefix (a : basic_string_view) (n : Nat) : basic_string_view :=
  { data_ := a.data_ + n, size_ := (a.size_ + 2 ^ 64 - n) % 2 ^ 64 }

/-- Source: `remove_suffix(n) { size_ -= n; }` (requires `n <= size()`, unchecked). -/
def basic_string_view.remove_suffix (a : basic_string_view) (n : Nat) : basic_string_view :=
  { data_ := a.data_, size_ := (a.size_ + 2 ^ 64 - n) % 2 ^ 64 }

/-- Source: `compare(pos1, n1, const_pointer s, n2)`:
`return substr(pos1, n1).compare(basic_string_view(s, n2));` -/
def basic_string_view.compare_ptr_len {α : Type} (tc : Mem α → Nat → Nat → Nat → Int)
    (mem : Mem α) (a : basic_string_view) (pos1 n1 s n2 : Nat) : Except Exception Int :=
  (substr a pos1 n1).map (fun v => compare tc mem v (of_ptr_len s n2))

/-- Source: `compare(pos1, n1, basic_string_view s)`:
`return substr(pos1, n1).compare(str);`. The body names `str`; the header
declares no `str` in this scope (the parameter is `s`), so what `str` denotes
is a further argument here. -/
def basic_string_view.compare_sub {α : Type} (tc : Mem α → Nat → Nat → Nat → Int)
    (mem : Mem α) (a : basic_string_view) (pos1 n1 : Nat) (s : basic_string_view)
    (str : basic_string_view) : Except Exception Int :=
  (substr a pos1 n1).map (fun v => compare tc mem v str)

/-- Source: `compare(pos1, n1, basic_string_view s, pos2, n2)`:
`return substr(pos1, n1).compare(str.substr(pos2, n2));`, with the same
undeclared `str` as a further argument. -/
def basic_string_view.compare_sub_sub {α : Type} (tc : Mem α → Nat → Nat → Nat → Int)
    (mem : Mem α) (a : basic_string_view) (pos1 n1 : Nat) (s : basic_string_view)
    (pos2 n2 : Nat) (str : basic_string_view) : Except Exception Int :=
  (substr a pos1 n1).bind (fun v => (substr str pos2 n2).map (fun w => compare tc mem v w))

/-- The two-view form the overloads are specified to delegate to:
`a.substr(pos1, n1).compare(t)`. -/
def spec_compare_sub {α : Type} (tc : Mem α → Nat → Nat → Nat → Int)
    (mem : Mem α) (a : basic_string_view) (pos1 n1 : Nat) (t : basic_string_view) :
    Except Exception Int :=
  (substr a pos1 n1).map (fun v => compare tc mem v t)

/-- The two-view form with a sub-range of the argument:
`a.substr(pos1, n1).compare(s.substr(pos2, n2))`. -/
def spec_compare_sub_sub {α : Type} (tc : Mem α → Nat → Nat → Nat → Int)
    (mem : Mem α) (a : basic_string_view) (pos1 n1 : Nat) (s : basic_string_view)
    (pos2 n2 : Nat) : Except Exception Int :=
  (substr a pos1 n1).bind (fun v => (substr s pos2 n2).map (fun w => compare tc mem v w))

/-- The units of `p` occur in `a` from index `i` on and end by index `w`. -/
def matches_within {α : Type} (mem : Mem α) (a p : basic_string_view) (w i : Nat) : Prop :=
  i + p.size ≤ w ∧ ∀ j, j < p.size → index mem a (i + j) = index mem p j

/-- The unit `c` occurs in the view `s`. -/
def unit_in {α : Type} (mem : Mem α) (s : basic_string_view) (c : α) : Prop :=
  ∃ j, j < s.size ∧ c = index mem s j

/-! ## Lemmas on the buffer compare -/

theorem first_diff_succ {α : Type} (R : α → α → Prop) (mem : Mem α) (p q n : Nat)
    (h0 : mem p = mem q) (hR : ¬ R (mem p) (mem q)) :
    (∃ k, k < n + 1 ∧ (∀ j, j < k → mem (p + j) = mem (q + j)) ∧ R (mem (p + k)) (mem (q + k))) ↔
    (∃ k, k < n ∧ (∀ j, j < k → mem (p + 1 + j) = mem (q + 1 + j)) ∧
      R (mem (p + 1 + k)) (mem (q + 1 + k))) := by
  constructor
  · rintro ⟨k, hk, heq, hr⟩
    cases k with
    | zero => exact absurd hr hR
    | succ k =>
      refine ⟨k, by omega, ?_, ?_⟩
      · intro j hj
        have := heq (j + 1) (by omega)
        rwa [show p + (j + 1) = p + 1 + j by omega, show q + (j + 1) = q + 1 + j by omega] at this
      · rwa [show p + (k + 1) = p + 1 + k by omega, show q + (k + 1) = q + 1 + k by omega] at hr
  · rintro ⟨k, hk, heq, hr⟩
    refine ⟨k + 1, by omega, ?_, ?_⟩
    · intro j hj
      cases j with
      | zero => exact h0
      | succ j =>
        have := heq j (by omega)
        rwa [show p + 1 + j = p + (j + 1) by omega, show q + 1 + j = q + (j + 1) by omega] at this
    · rwa [show p + 1 + k = p + (k + 1) by omega, show q + 1 + k = q + (k + 1) by omega] at hr

theorem first_diff_head {α : Type} (R : α → α → Prop) (mem : Mem α) (p q n : Nat)
    (hR : R (mem p) (mem q)) :
    ∃ k, k < n + 1 ∧ (∀ j, j < k → mem (p + j) = mem (q + j)) ∧ R (mem (p + k)) (mem (q + k)) :=
  ⟨0, by omega, fun j hj => absurd hj (Nat.not_lt_zero j), hR⟩

theorem first_diff_none {α : Type} (R : α → α → Prop) (mem : Mem α) (p q n : Nat)
    (hne : mem p ≠ mem q) (hR : ¬ R (mem p) (mem q)) :
    ¬ ∃ k, k < n ∧ (∀ j, j < k → mem (p + j) = mem (q + j)) ∧ R (mem (p + k)) (mem (q + k)) := by
  rintro ⟨k, _, heq, hr⟩
  cases k with
  | zero => exact hR hr
  | succ k => exact hne (heq 0 (by omega))

/-- The default traits compare is a lexicographic comparison. -/
theorem char_traits_compare_lex {α : Type} [LinearOrder α] :
    lexicographic (char_traits_compare (α := α)) := by
  intro mem p q n
  induction n generalizing p q with
  | zero => simp [char_traits_compare]
  | succ n ih =>
    obtain ⟨ihn, ihp⟩ := ih (p + 1) (q + 1)
    rw [char_traits_compare]
    by_cases h1 : mem p < mem q
    · rw [if_pos h1]
      refine ⟨⟨fun _ => first_diff_head (· < ·) mem p q n h1, fun _ => by decide⟩,
        ⟨fun h => absurd h (by decide), fun h => ?_⟩⟩
      exact absurd h (first_diff_none (fun x y => y < x) mem p q (n + 1) (ne_of_lt h1)
        (not_lt_of_lt h1))
    · rw [if_neg h1]
      by_cases h2 : mem q < mem p
      · rw [if_pos h2]
        refine ⟨⟨fun h => absurd h (by decide), fun h => ?_⟩,
          ⟨fun _ => first_diff_head (fun x y => y < x) mem p q n h2, fun _ => by decide⟩⟩
        exact absurd h (first_diff_none (· < ·) mem p q (n + 1) (ne_of_gt h2) h1)
      · rw [if_neg h2]
        have h0 : mem p = mem q := le_antisymm (not_lt.1 h2) (not_lt.1 h1)
        rw [ihn, ihp]
        exact ⟨(first_diff_succ (· < ·) mem p q n h0 h1).symm,
          (first_diff_succ (fun x y => y < x) mem p q n h0 h2).symm⟩

theorem lex_zero_iff {α : Type} [LinearOrder α] {tc : Mem α → Nat → Nat → Nat → Int}
    (h : lexicographic tc) (mem : Mem α) (p q n : Nat) :
    tc mem p q n = 0 ↔ ∀ j, j < n → mem (p + j) = mem (q + j) := by
  obtain ⟨hneg, hpos⟩ := h mem p q n
  constructor
  · intro h0 j
    induction j using Nat.strong_induction_on with
    | _ j ih =>
      intro hj
      by_contra hne
      rcases lt_or_gt_of_ne hne with hlt | hgt
      · have : tc mem p q n < 0 := hneg.2 ⟨j, hj, fun i hi => ih i hi (lt_trans hi hj), hlt⟩
        omega
      · have : 0 < tc mem p q n := hpos.2 ⟨j, hj, fun i hi => ih i hi (lt_trans hi hj), hgt⟩
        omega
  · intro hall
    have h1 : ¬ tc mem p q n < 0 := by
      rw [hneg]; rintro ⟨k, hk, _, hlt⟩; exact absurd (hall k hk) (ne_of_lt hlt)
    have h2 : ¬ 0 < tc mem p q n := by
      rw [hpos]; rintro ⟨k, hk, _, hlt⟩; exact absurd (hall k hk).symm (ne_of_lt hlt)
    omega

theorem compare_neg_iff {α : Type} [LinearOrder α] {tc : Mem α → Nat → Nat → Nat → Int}
    (h : lexicographic tc) (mem : Mem α) (a b : basic_string_view) :
    compare tc mem a b < 0 ↔ lex_before mem a b := by
  obtain ⟨hneg, hpos⟩ := h mem a.data_ b.data_ (min a.size_ b.size_)
  have hz := lex_zero_iff h mem a.data_ b.data_ (min a.size_ b.size_)
  simp only [basic_string_view.compare, lex_before, size, data, index]
  by_cases h0 : tc mem a.data_ b.data_ (min a.size_ b.size_) = 0
  · rw [if_pos h0]
    have hall := hz.1 h0
    constructor
    · intro hc
      left
      split_ifs at hc with e1 e2
      · omega
      · exact ⟨e2, fun i hi => hall i (by omega)⟩
      · omega
    · rintro (⟨hlt, _⟩ | ⟨k, hk1, hk2, _, hk⟩)
      · rw [if_neg (by omega), if_pos hlt]; decide
      · exact absurd (hall k (by omega)) (ne_of_lt hk)
  · rw [if_neg h0, hneg]
    constructor
    · rintro ⟨k, hk, heq, hlt⟩
      exact Or.inr ⟨k, by omega, by omega, heq, hlt⟩
    · rintro (⟨hlt, hall⟩ | ⟨k, hk1, hk2, heq, hk⟩)
      · exact absurd (hz.2 (fun j hj => hall j (by omega))) h0
      · exact ⟨k, by omega, heq, hk⟩

theorem compare_pos_iff {α : Type} [LinearOrder α] {tc : Mem α → Nat → Nat → Nat → Int}
    (h : lexicographic tc) (mem : Mem α) (a b : basic_string_view) :
    0 < compare tc mem a b ↔ lex_before mem b a := by
  obtain ⟨hneg, hpos⟩ := h mem a.data_ b.data_ (min a.size_ b.size_)
  have hz := lex_zero_iff h mem a.data_ b.data_ (min a.size_ b.size_)
  simp only [basic_string_view.compare, lex_before, size, data, index]
  by_cases h0 : tc mem a.data_ b.data_ (min a.size_ b.size_) = 0
  · rw [if_pos h0]
    have hall := hz.1 h0
    constructor
    · intro hc
      left
      split_ifs at hc with e1 e2
      · omega
      · omega
      · exact ⟨by omega, fun i hi => (hall i (by omega)).symm⟩
    · rintro (⟨hlt, _⟩ | ⟨k, hk1, hk2, _, hk⟩)
      · rw [if_neg (by omega), if_neg (by omega)]; decide
      · exact absurd (hall k (by omega)).symm (ne_of_lt hk)
  · rw [if_neg h0, hpos]
    constructor
    · rintro ⟨k, hk, heq, hlt⟩
      exact Or.inr ⟨k, by omega, by omega, fun j hj => (heq j hj).symm, hlt⟩
    · rintro (⟨hlt, hall⟩ | ⟨k, hk1, hk2, heq, hk⟩)
      · exact absurd (hz.2 (fun j hj => (hall j (by omega)).symm)) h0
      · exact ⟨k, by omega, fun j hj => (heq j hj).symm, hk⟩

theorem compare_zero_iff {α : Type} [LinearOrder α] {tc : Mem α → Nat → Nat → Nat → Int}
    (h : lexicographic tc) (mem : Mem α) (a b : basic_string_view) :
    compare tc mem a b = 0 ↔ same_units mem a b := by
  have hz := lex_zero_iff h mem a.data_ b.data_ (min a.size_ b.size_)
  simp only [basic_string_view.compare, same_units, size, data, index]
  by_cases h0 : tc mem a.data_ b.data_ (min a.size_ b.size_) = 0
  · rw [if_pos h0]
    have hall := hz.1 h0
    constructor
    · intro hc
      by_cases e1 : a.size_ = b.size_
      · exact ⟨e1, fun i hi => hall i (by omega)⟩
      · rw [if_neg e1] at hc
        split_ifs at hc; omega
    · rintro ⟨e, _⟩
      rw [if_pos e]
  · rw [if_neg h0]
    constructor
    · intro hc; exact absurd hc h0
    · rintro ⟨e, hall⟩
      exact absurd (hz.2 (fun j hj => hall j (by omega))) h0

theorem compare_swap_neg {α : Type} [LinearOrder α] {tc : Mem α → Nat → Nat → Nat → Int}
    (h : lexicographic tc) (mem : Mem α) (a b : basic_string_view) :
    compare tc mem a b < 0 ↔ 0 < compare tc mem b a :=
  (compare_neg_iff h mem a b).trans (compare_pos_iff h mem b a).symm

theorem same_units_trans {α : Type} (mem : Mem α) (a b c : basic_string_view)
    (hab : same_units mem a b) (hbc : same_units mem b c) : same_units mem a c := by
  obtain ⟨e1, h1⟩ := hab
  obtain ⟨e2, h2⟩ := hbc
  exact ⟨e1.trans e2, fun i hi => (h1 i hi).trans (h2 i (e1 ▸ hi))⟩

theorem lex_before_same_left {α : Type} [LinearOrder α] (mem : Mem α)
    (a b c : basic_string_view) (hab : same_units mem a b) (hbc : lex_before mem b c) :
    lex_before mem a c := by
  obtain ⟨e1, h1⟩ := hab
  rcases hbc with ⟨hlt, hall⟩ | ⟨k, hk1, hk2, heq, hk⟩
  · exact Or.inl ⟨by omega, fun i hi => (h1 i hi).trans (hall i (by omega))⟩
  · refine Or.inr ⟨k, by omega, hk2, fun j hj => (h1 j (by omega)).trans (heq j hj), ?_⟩
    rw [h1 k (by omega)]; exact hk

theorem lex_before_same_right {α : Type} [LinearOrder α] (mem : Mem α)
    (a b c : basic_string_view) (hab : lex_before mem a b) (hbc : same_units mem b c) :
    lex_before mem a c := by
  obtain ⟨e1, h1⟩ := hbc
  rcases hab with ⟨hlt, hall⟩ | ⟨k, hk1, hk2, heq, hk⟩
  · exact Or.inl ⟨by omega, fun i hi => (hall i hi).trans (h1 i (by omega))⟩
  · refine Or.inr ⟨k, hk1, by omega, fun j hj => (heq j hj).trans (h1 j (by omega)), ?_⟩
    rw [← h1 k hk2]; exact hk

theorem lex_before_trans {α : Type} [LinearOrder α] (mem : Mem α)
    (a b c : basic_string_view) (hab : lex_before mem a b) (hbc : lex_before mem b c) :
    lex_before mem a c := by
  rcases hab with ⟨hlt1, hall1⟩ | ⟨k1, hk1a, hk1b, heq1, hd1⟩
  · rcases hbc with ⟨hlt2, hall2⟩ | ⟨k2, hk2b, hk2c, heq2, hd2⟩
    · exact Or.inl ⟨by omega, fun i hi => (hall1 i hi).trans (hall2 i (by omega))⟩
    · by_cases hk : k2 < a.size
      · refine Or.inr ⟨k2, hk, hk2c, fun j hj => (hall1 j (by omega)).trans (heq2 j hj), ?_⟩
        rw [hall1 k2 hk]; exact hd2
      · exact Or.inl ⟨by omega, fun i hi => (hall1 i hi).trans (heq2 i (by omega))⟩
  · rcases hbc with ⟨hlt2, hall2⟩ | ⟨k2, hk2b, hk2c, heq2, hd2⟩
    · refine Or.inr ⟨k1, hk1a, by omega, fun j hj => (heq1 j hj).trans (hall2 j (by omega)), ?_⟩
      rw [← hall2 k1 hk1b]; exact hd1
    · rcases lt_trichotomy k1 k2 with hlt | heq | hgt
      · refine Or.inr ⟨k1, hk1a, by omega,
          fun j hj => (heq1 j hj).trans (heq2 j (by omega)), ?_⟩
        rw [← heq2 k1 hlt]; exact hd1
      · subst heq
        exact Or.inr ⟨k1, hk1a, hk2c, fun j hj => (heq1 j hj).trans (heq2 j hj),
          lt_trans hd1 hd2⟩
      · refine Or.inr ⟨k2, by omega, hk2c,
          fun j hj => (heq1 j (by omega)).trans (heq2 j hj), ?_⟩
        rw [heq1 k2 hgt]; exact hd2

/-! ## Comparison claims -/

/-- C1: for a lexicographic buffer-compare, `a.compare(b) == 0` holds exactly
when `a` and `b` have the same length and the same code unit at every index;
`operator==` is true in exactly that case and `operator!=` is its negation. -/
theorem compare_zero_iff_same_units {α : Type} [LinearOrder α]
    (tc : Mem α → Nat → Nat → Nat → Int) (htc : lexicographic tc)
    (mem : Mem α) (a b : basic_string_view) :
    (compare tc mem a b = 0 ↔
      (a.size = b.size ∧ ∀ i, i < a.size → index mem a i = index mem b i)) ∧
    (op_eq tc mem a b = true ↔
      (a.size = b.size ∧ ∀ i, i < a.size → index mem a i = index mem b i)) ∧
    op_ne tc mem a b = !(op_eq tc mem a b) := by
  refine ⟨compare_zero_iff htc mem a b, ?_, ?_⟩
  · rw [op_eq, decide_eq_true_iff]
    exact compare_zero_iff htc mem a b
  · simp [op_ne, op_eq]

/-- Witness for C1: "ab" at address 0 and "ab" at address 2 of "abab". -/
theorem compare_zero_iff_same_units_witness :
    lexicographic (char_traits_compare (α := Char)) ∧
    op_eq char_traits_compare (mem_of "abab".toList ' ') ⟨0, 2⟩ ⟨2, 2⟩ = true ∧
    op_ne char_traits_compare (mem_of "abab".toList ' ') ⟨0, 2⟩ ⟨2, 2⟩ = false :=
  ⟨char_traits_compare_lex,
    (compare_zero_iff_same_units char_traits_compare char_traits_compare_lex
      (mem_of "abab".toList ' ') ⟨0, 2⟩ ⟨2, 2⟩).2.1.2 (by decide),
    by decide⟩

/-- C2: for a lexicographic buffer-compare, `a.compare(b)` is negative exactly
when `a` is a proper prefix of `b` or `a` has the smaller unit at the first
index where they differ, positive in the mirrored case, and zero otherwise;
"ab" < "abc" and "ac" > "ab". -/
theorem compare_sign_lexicographic {α : Type} [LinearOrder α]
    (tc : Mem α → Nat → Nat → Nat → Int) (htc : lexicographic tc)
    (mem : Mem α) (a b : basic_string_view) :
    (compare tc mem a b < 0 ↔
      ((a.size < b.size ∧ ∀ i, i < a.size → index mem a i = index mem b i) ∨
       ∃ k, k < a.size ∧ k < b.size ∧ (∀ j, j < k → index mem a j = index mem b j) ∧
         index mem a k < index mem b k)) ∧
    (0 < compare tc mem a b ↔
      ((b.size < a.size ∧ ∀ i, i < b.size → index mem b i = index mem a i) ∨
       ∃ k, k < b.size ∧ k < a.size ∧ (∀ j, j < k → index mem b j = index mem a j) ∧
         index mem b k < index mem a k)) ∧
    (compare tc mem a b = 0 ↔
      ¬ ((a.size < b.size ∧ ∀ i, i < a.size → index mem a i = index mem b i) ∨
         ∃ k, k < a.size ∧ k < b.size ∧ (∀ j, j < k → index mem a j = index mem b j) ∧
           index mem a k < index mem b k) ∧
      ¬ ((b.size < a.size ∧ ∀ i, i < b.size → index mem b i = index mem a i) ∨
         ∃ k, k < b.size ∧ k < a.size ∧ (∀ j, j < k → index mem b j = index mem a j) ∧
           index mem b k < index mem a k)) ∧
    (op_lt char_traits_compare (mem_of "ababc".toList ' ') ⟨0, 2⟩ ⟨2, 3⟩ = true ∧
     op_gt char_traits_compare (mem_of "acab".toList ' ') ⟨0, 2⟩ ⟨2, 2⟩ = true) := by
  have hneg := compare_neg_iff htc mem a b
  have hpos := compare_pos_iff htc mem a b
  refine ⟨hneg, hpos, ?_, by decide, by decide⟩
  have hz : compare tc mem a b = 0 ↔
      ¬ lex_before mem a b ∧ ¬ lex_before mem b a := by
    rw [← hneg, ← hpos]; omega
  exact hz

/-- Witness for C2: "ab" against "abc" (a proper prefix) under the default traits. -/
theorem compare_sign_lexicographic_witness :
    lexicographic (char_traits_compare (α := Char)) ∧
    compare char_traits_compare (mem_of "ababc".toList ' ') ⟨0, 2⟩ ⟨2, 3⟩ < 0 :=
  ⟨char_traits_compare_lex,
    (compare_sign_lexicographic char_traits_compare char_traits_compare_lex
      (mem_of "ababc".toList ' ') ⟨0, 2⟩ ⟨2, 3⟩).1.2
      (Or.inl ⟨by decide, by decide⟩)⟩

/-- C3: for a lexicographic buffer-compare, the sign of `a.compare(b)` is the
negation of the sign of `b.compare(a)`; so `a < b` iff `b > a`, and `a <= b`
iff not `b < a`. -/
theorem compare_antisymmetric {α : Type} [LinearOrder α]
    (tc : Mem α → Nat → Nat → Nat → Int) (htc : lexicographic tc)
    (mem : Mem α) (a b : basic_string_view) :
    Int.sign (compare tc mem a b) = - Int.sign (compare tc mem b a) ∧
    op_lt tc mem a b = op_gt tc mem b a ∧
    op_le tc mem a b = !(op_lt tc mem b a) := by
  have h1 := compare_swap_neg htc mem a b
  have h2 := compare_swap_neg htc mem b a
  refine ⟨?_, ?_, ?_⟩
  · rcases lt_trichotomy (compare tc mem a b) 0 with hlt | heq | hgt
    · rw [Int.sign_eq_neg_one_of_neg hlt, Int.sign_eq_one_of_pos (h1.1 hlt)]
    · have hb : compare tc mem b a = 0 := by
        rcases lt_trichotomy (compare tc mem b a) 0 with h | h | h
        · have := h2.1 h; omega
        · exact h
        · have := h1.2 h; omega
      rw [heq, hb]; rfl
    · rw [Int.sign_eq_one_of_pos hgt, Int.sign_eq_neg_one_of_neg (h2.2 hgt)]; rfl
  · simp only [op_lt, op_gt, gt_iff_lt]
    exact decide_eq_decide.2 h1
  · simp only [op_le, op_lt]
    rw [← decide_not]
    apply decide_eq_decide.2
    rw [h2]; omega

/-- Witness for C3: "ac" against "ab" under the default traits. -/
theorem compare_antisymmetric_witness :
    lexicographic (char_traits_compare (α := Char)) ∧
    Int.sign (compare char_traits_compare (mem_of "acab".toList ' ') ⟨0, 2⟩ ⟨2, 2⟩) =
      - Int.sign (compare char_traits_compare (mem_of "acab".toList ' ') ⟨2, 2⟩ ⟨0, 2⟩) :=
  ⟨char_traits_compare_lex,
    (compare_antisymmetric char_traits_compare char_traits_compare_lex
      (mem_of "acab".toList ' ') ⟨0, 2⟩ ⟨2, 2⟩).1⟩

/-- C4: for a lexicographic buffer-compare, `compare` is transitive: if
`a.compare(b) <= 0` and `b.compare(c) <= 0` then `a.compare(c) <= 0`, and if
either of the two is strictly negative then `a.compare(c) < 0`. -/
theorem compare_transitive {α : Type} [LinearOrder α]
    (tc : Mem α → Nat → Nat → Nat → Int) (htc : lexicographic tc)
    (mem : Mem α) (a b c : basic_string_view)
    (hab : compare tc mem a b ≤ 0) (hbc : compare tc mem b c ≤ 0) :
    compare tc mem a c ≤ 0 ∧
    ((compare tc mem a b < 0 ∨ compare tc mem b c < 0) → compare tc mem a c < 0) := by
  have key : (compare tc mem a b < 0 ∨ compare tc mem b c < 0) → compare tc mem a c < 0 := by
    intro hor
    rw [compare_neg_iff htc]
    rcases lt_or_eq_of_le hab with h1 | h1
    · rcases lt_or_eq_of_le hbc with h2 | h2
      · exact lex_before_trans mem a b c ((compare_neg_iff htc mem a b).1 h1)
          ((compare_neg_iff htc mem b c).1 h2)
      · exact lex_before_same_right mem a b c ((compare_neg_iff htc mem a b).1 h1)
          ((compare_zero_iff htc mem b c).1 h2)
    · rcases lt_or_eq_of_le hbc with h2 | h2
      · exact lex_before_same_left mem a b c ((compare_zero_iff htc mem a b).1 h1)
          ((compare_neg_iff htc mem b c).1 h2)
      · rcases hor with h | h <;> omega
  refine ⟨?_, key⟩
  by_cases hor : compare tc mem a b < 0 ∨ compare tc mem b c < 0
  · exact le_of_lt (key hor)
  · have h1 : compare tc mem a b = 0 := by omega
    have h2 : compare tc mem b c = 0 := by omega
    exact le_of_eq ((compare_zero_iff htc mem a c).2 (same_units_trans mem a b c
      ((compare_zero_iff htc mem a b).1 h1) ((compare_zero_iff htc mem b c).1 h2)))

/-- Witness for C4: "ab" <= "abc" <= "ac" under the default traits. -/
theorem compare_transitive_witness :
    lexicographic (char_traits_compare (α := Char)) ∧
    compare char_traits_compare (mem_of "ababcac".toList ' ') ⟨0, 2⟩ ⟨2, 3⟩ ≤ 0 ∧
    compare char_traits_compare (mem_of "ababcac".toList ' ') ⟨2, 3⟩ ⟨5, 2⟩ ≤ 0 ∧
    compare char_traits_compare (mem_of "ababcac".toList ' ') ⟨0, 2⟩ ⟨5, 2⟩ < 0 :=
  ⟨char_traits_compare_lex, by decide, by decide,
    (compare_transitive char_traits_compare char_traits_compare_lex
      (mem_of "ababcac".toList ' ') ⟨0, 2⟩ ⟨2, 3⟩ ⟨5, 2⟩ (by decide) (by decide)).2
      (Or.inl (by decide))⟩

/-! ## Checked operations: `substr`, `at`, `copy` -/

theorem read_units_get {α : Type} (mem : Mem α) (first count i : Nat) :
    (read_units mem first count)[i]? = if i < count then some (mem (first + i)) else none := by
  induction count generalizing first i with
  | zero => simp [read_units]
  | succ count ih =>
    rw [read_units]
    cases i with
    | zero => simp
    | succ i =>
      rw [List.getElem?_cons_succ, ih]
      by_cases h : i < count
      · rw [if_pos h, if_pos (by omega)]
        congr 2; omega
      · rw [if_neg h, if_neg (by omega)]

theorem write_units_below {α : Type} (mem : Mem α) (result : Nat) (l : List α) (addr : Nat)
    (h : addr < result) : write_units mem result l addr = mem addr := by
  induction l generalizing mem result with
  | nil => rfl
  | cons c cs ih =>
    rw [write_units, ih _ _ (by omega), if_neg (by omega)]

theorem write_units_from {α : Type} (mem : Mem α) (result : Nat) (l : List α) (i : Nat) :
    write_units mem result l (result + i) = (l[i]?).getD (mem (result + i)) := by
  induction l generalizing mem result i with
  | nil => rfl
  | cons c cs ih =>
    rw [write_units]
    cases i with
    | zero =>
      rw [write_units_below _ _ _ _ (by omega)]
      simp
    | succ i =>
      rw [show result + (i + 1) = result + 1 + i by omega, ih, List.getElem?_cons_succ,
        if_neg (by omega)]

theorem copy_n_outside {α : Type} (mem : Mem α) (first count result addr : Nat)
    (h : addr < result ∨ result + count ≤ addr) :
    copy_n mem first count result addr = mem addr := by
  unfold copy_n
  rcases h with h | h
  · exact write_units_below mem result _ addr h
  · rw [show addr = result + (addr - result) by omega, write_units_from, read_units_get,
      if_neg (by omega)]
    rfl

theorem copy_n_inside {α : Type} (mem : Mem α) (first count result i : Nat) (hi : i < count) :
    copy_n mem first count result (result + i) = mem (first + i) := by
  unfold copy_n
  rw [write_units_from, read_units_get, if_pos hi]
  rfl

/-- C5: `a.substr(pos, n)` throws out_of_range exactly when `pos > a.size()`;
otherwise it returns a view of length `min(n, a.size() - pos)` whose `i`-th
unit is `a`'s `(pos + i)`-th. So `a.substr(pos).size() == a.size() - pos` for
`pos <= a.size()`, `a.substr(a.size())` is a valid empty view, `substr(3, 2)`
of "abcdef" is "de" and `substr(10)` of "abcdef" throws. -/
theorem substr_spec (a : basic_string_view) (pos n : Nat) :
    (substr a pos n = Except.error Exception.out_of_range ↔ pos > a.size) ∧
    (pos ≤ a.size →
      ∃ v, substr a pos n = Except.ok v ∧ v.size = min n (a.size - pos) ∧
        ∀ (α : Type) (mem : Mem α) (i : Nat), i < v.size →
          index mem v i = index mem a (pos + i)) ∧
    (pos ≤ a.size → a.size ≤ npos →
      ∃ v, substr a pos npos = Except.ok v ∧ v.size = a.size - pos) ∧
    (∃ v, substr a a.size npos = Except.ok v ∧ v.empty = true) ∧
    (substr ⟨0, 6⟩ 3 2).map (units (mem_of "abcdef".toList ' ')) = Except.ok "de".toList ∧
    substr ⟨0, 6⟩ 10 npos = Except.error Exception.out_of_range := by
  refine ⟨?_, ?_, ?_, ?_, rfl, rfl⟩
  · unfold substr
    by_cases h : pos > a.size
    · simp [h]
    · simp [h]
  · intro h
    refine ⟨of_ptr_len (a.data + pos) (min n (a.size - pos)), ?_, rfl, ?_⟩
    · unfold substr; rw [if_neg (by omega)]
    · intro α mem i _
      simp only [index, of_ptr_len, data]
      congr 1; omega
  · intro h hs
    refine ⟨of_ptr_len (a.data + pos) (min npos (a.size - pos)), ?_, ?_⟩
    · unfold substr; rw [if_neg (by omega)]
    · simp only [size, of_ptr_len] at *
      omega
  · refine ⟨of_ptr_len (a.data + a.size) (min npos (a.size - a.size)), ?_, ?_⟩
    · unfold substr; rw [if_neg (by omega)]
    · simp [empty, of_ptr_len]

/-- Witness for C5: `substr(1, 2)` of a view of length 3 at address 4. -/
theorem substr_spec_witness :
    (1 ≤ (⟨4, 3⟩ : basic_string_view).size) ∧
    ∃ v, substr ⟨4, 3⟩ 1 2 = Except.ok v ∧ v.size = min 2 ((⟨4, 3⟩ : basic_string_view).size - 1) ∧
      ∀ (α : Type) (mem : Mem α) (i : Nat), i < v.size →
        index mem v i = index mem ⟨4, 3⟩ (1 + i) :=
  ⟨by decide, (substr_spec ⟨4, 3⟩ 1 2).2.1 (by decide)⟩

/-- C6: `a.at(i)` throws out_of_range exactly when `i >= a.size()`; for
`i < a.size()` it returns the `i`-th unit, the value of `a[i]`. So
`a.at(a.size())` always throws and `at(0)` on an empty view throws. -/
theorem at_spec {α : Type} (mem : Mem α) (a : basic_string_view) (i : Nat) :
    (at_ mem a i = Except.error Exception.out_of_range ↔ i ≥ a.size) ∧
    (i < a.size → at_ mem a i = Except.ok (index mem a i)) ∧
    at_ mem a a.size = Except.error Exception.out_of_range ∧
    at_ mem empty_view 0 = Except.error Exception.out_of_range := by
  refine ⟨?_, ?_, ?_, ?_⟩
  · unfold at_
    by_cases h : i ≥ a.size
    · simp [h]
    · simp [h]
  · intro h
    unfold at_
    rw [if_neg (by omega)]; rfl
  · unfold at_; rw [if_pos (le_refl _)]
  · rfl

/-- Witness for C6: `at(1)` of "abc" is 'b'. -/
theorem at_spec_witness :
    (1 < (⟨0, 3⟩ : basic_string_view).size) ∧
    at_ (mem_of "abc".toList ' ') ⟨0, 3⟩ 1 = Except.ok 'b' :=
  ⟨by decide, (at_spec (mem_of "abc".toList ' ') ⟨0, 3⟩ 1).2.1 (by decide)⟩

/-- C7: `a.copy(dest, n, pos)` throws out_of_range (and returns no storage)
exactly when `pos > a.size()`; otherwise it returns `r = min(n, a.size() - pos)`,
the first `r` units of `dest` become `a[pos], ..., a[pos + r - 1]`, the units
of `dest` from index `r` on, and every other address outside `[dest, dest + r)`,
are unchanged. `copy` is a `const` member: the view `(data_, size_)` is an
input only, and each of its units that is not overwritten still reads the same. -/
theorem copy_spec {α : Type} (mem : Mem α) (a : basic_string_view) (dest n pos : Nat) :
    (a.copy mem dest n pos = Except.error Exception.out_of_range ↔ pos > a.size) ∧
    (pos ≤ a.size →
      ∃ mem', a.copy mem dest n pos = Except.ok (mem', min n (a.size - pos)) ∧
        (∀ i, i < min n (a.size - pos) → mem' (dest + i) = index mem a (pos + i)) ∧
        (∀ j, min n (a.size - pos) ≤ j → mem' (dest + j) = mem (dest + j)) ∧
        (∀ addr, addr < dest ∨ dest + min n (a.size - pos) ≤ addr → mem' addr = mem addr) ∧
        (∀ i, a.data + i < dest ∨ dest + min n (a.size - pos) ≤ a.data + i →
          index mem' a i = index mem a i)) := by
  refine ⟨?_, ?_⟩
  · unfold basic_string_view.copy
    by_cases h : pos > a.size
    · simp [h]
    · simp [h]
  · intro h
    refine ⟨copy_n mem (a.begin + pos) (min n (a.size - pos)) dest, ?_, ?_, ?_, ?_, ?_⟩
    · unfold basic_string_view.copy; rw [if_neg (by omega)]
    · intro i hi
      simp only [begin, cbegin, index]
      rw [copy_n_inside mem _ _ _ _ hi]
      congr 1; omega
    · intro j hj
      exact copy_n_outside mem _ _ _ _ (by omega)
    · intro addr haddr
      exact copy_n_outside mem _ _ _ _ haddr
    · intro i hi
      exact copy_n_outside mem _ _ _ _ hi

/-- Witness for C7: copying the 3 units of "abc" (at address 0 of "abcd") to
address 1, a destination that overlaps the source. -/
theorem copy_spec_witness :
    (0 ≤ (⟨0, 3⟩ : basic_string_view).size) ∧
    ∃ mem', (⟨0, 3⟩ : basic_string_view).copy (mem_of "abcd".toList ' ') 1 3 0 =
        Except.ok (mem', 3) ∧ mem' 1 = 'a' ∧ mem' 2 = 'b' ∧ mem' 3 = 'c' ∧ mem' 0 = 'a' ∧
        mem' 4 = ' ' := by
  obtain ⟨mem', h1, h2, h3, h4, _⟩ := (copy_spec (mem_of "abcd".toList ' ') ⟨0, 3⟩ 1 3 0).2
    (by decide)
  exact ⟨by decide, mem', h1, h2 0 (by decide), h2 1 (by decide), h2 2 (by decide),
    h4 0 (by decide), h3 3 (by decide)⟩

/-! ## `std::search` and `find` -/

theorem forall_lt_succ_shift {α : Type} (mem : Mem α) (it s k : Nat) :
    (∀ j, j < k + 1 → mem (it + j) = mem (s + j)) ↔
    (mem it = mem s ∧ ∀ j, j < k → mem (it + 1 + j) = mem (s + 1 + j)) := by
  constructor
  · intro h
    refine ⟨h 0 (by omega), fun j hj => ?_⟩
    have := h (j + 1) (by omega)
    rwa [show it + (j + 1) = it + 1 + j by omega, show s + (j + 1) = s + 1 + j by omega] at this
  · rintro ⟨h0, h⟩ j hj
    cases j with
    | zero => exact h0
    | succ j =>
      have := h j (by omega)
      rwa [show it + 1 + j = it + (j + 1) by omega, show s + 1 + j = s + (j + 1) by omega] at this

theorem search_inner_found_iff {α : Type} [DecidableEq α] (mem : Mem α) (last it s k : Nat)
    (h : it ≤ last) :
    search_inner mem last it s k = search_step.found ↔ occurs_at mem last s k it := by
  unfold occurs_at
  induction k generalizing it s with
  | zero => simp [search_inner, h]
  | succ k ih =>
    rw [search_inner, forall_lt_succ_shift]
    by_cases h1 : it = last
    · rw [if_pos h1]
      constructor
      · intro hc; cases hc
      · rintro ⟨hle, _⟩; omega
    · rw [if_neg h1]
      by_cases h2 : mem it ≠ mem s
      · rw [if_pos h2]
        constructor
        · intro hc; cases hc
        · rintro ⟨_, h0, _⟩; exact absurd h0 h2
      · rw [if_neg h2, ih (it + 1) (s + 1) (by omega)]
        have h0 : mem it = mem s := not_not.1 h2
        constructor
        · rintro ⟨hle, hall⟩; exact ⟨by omega, h0, hall⟩
        · rintro ⟨hle, _, hall⟩; exact ⟨by omega, hall⟩

theorem search_inner_hit_last {α : Type} [DecidableEq α] (mem : Mem α) (last it s k : Nat)
    (hr : search_inner mem last it s k = search_step.hit_last) : last < it + k := by
  induction k generalizing it s with
  | zero => rw [search_inner] at hr; cases hr
  | succ k ih =>
    rw [search_inner] at hr
    by_cases h1 : it = last
    · omega
    · rw [if_neg h1] at hr
      by_cases h2 : mem it ≠ mem s
      · rw [if_pos h2] at hr; cases hr
      · rw [if_neg h2] at hr
        have := ih _ _ hr
        omega

theorem search_inner_mismatch {α : Type} [DecidableEq α] (mem : Mem α) (last it s k : Nat)
    (hr : search_inner mem last it s k = search_step.mismatch) :
    it ≠ last ∧ ¬ ∀ j, j < k → mem (it + j) = mem (s + j) := by
  induction k generalizing it s with
  | zero => rw [search_inner] at hr; cases hr
  | succ k ih =>
    rw [search_inner] at hr
    rw [forall_lt_succ_shift]
    by_cases h1 : it = last
    · rw [if_pos h1] at hr; cases hr
    · rw [if_neg h1] at hr
      refine ⟨h1, ?_⟩
      by_cases h2 : mem it ≠ mem s
      · rintro ⟨h0, _⟩; exact h2 h0
      · rw [if_neg h2] at hr
        rintro ⟨_, hall⟩
        exact (ih _ _ hr).2 hall

/-- Within `last - first + 1` passes `std::search` stops, at the first
occurrence of the pattern or at `last` when there is none. -/
theorem search_outer_spec {α : Type} [DecidableEq α] (mem : Mem α) (last s m fuel first : Nat)
    (h : first ≤ last) (hf : last - first + 1 ≤ fuel) :
    ∃ r, search_outer mem last s m fuel first = some r ∧ first ≤ r ∧ r ≤ last ∧
      (∀ i, first ≤ i → i < r → ¬ occurs_at mem last s m i) ∧
      (occurs_at mem last s m r ∨ (r = last ∧ ∀ i, first ≤ i → ¬ occurs_at mem last s m i)) := by
  induction fuel generalizing first with
  | zero => omega
  | succ fuel ih =>
    rw [search_outer]
    cases hstep : search_inner mem last first s m with
    | found =>
      exact ⟨first, rfl, le_refl _, h, fun i h1 h2 => by omega,
        Or.inl ((search_inner_found_iff mem last first s m h).1 hstep)⟩
    | hit_last =>
      have hlt := search_inner_hit_last mem last first s m hstep
      have hno : ∀ i, first ≤ i → ¬ occurs_at mem last s m i := by
        rintro i hi ⟨hle, _⟩; omega
      exact ⟨last, rfl, h, le_refl _, fun i h1 _ => hno i h1, Or.inr ⟨rfl, hno⟩⟩
    | mismatch =>
      obtain ⟨hne, hnm⟩ := search_inner_mismatch mem last first s m hstep
      have hno : ¬ occurs_at mem last s m first := fun hc => hnm hc.2
      obtain ⟨r, hr, h1, h2, h3, h4⟩ := ih (first + 1) (by omega) (by omega)
      refine ⟨r, hr, by omega, h2, ?_, ?_⟩
      · intro i hi1 hi2
        by_cases hi : i = first
        · rw [hi]; exact hno
        · exact h3 i (by omega) hi2
      · rcases h4 with h4 | ⟨h4, h5⟩
        · exact Or.inl h4
        · refine Or.inr ⟨h4, fun i hi1 => ?_⟩
          by_cases hi : i = first
          · rw [hi]; exact hno
          · exact h5 i (by omega)

theorem occurs_at_iff_matches_at {α : Type} (mem : Mem α) (a p : basic_string_view) (i : Nat) :
    occurs_at mem (a.data_ + a.size_) p.data_ p.size_ (a.data_ + i) ↔ matches_at mem a p i := by
  unfold occurs_at matches_at
  simp only [size, index]
  constructor
  · rintro ⟨h1, h2⟩
    refine ⟨by omega, fun j hj => ?_⟩
    rw [← h2 j hj]; congr 1; omega
  · rintro ⟨h1, h2⟩
    refine ⟨by omega, fun j hj => ?_⟩
    rw [← h2 j hj]; congr 1; omega

/-- What `find` returns for a start position inside the view: with `i` the
first index from `pos` on where the pattern occurs (`a.size()` when there is
none), `i` itself unless `i == a.size()`, and `npos` when `i == a.size()`. -/
theorem find_spec {α : Type} [DecidableEq α] (mem : Mem α) (a p : basic_string_view)
    (pos : Nat) (hpos : pos ≤ a.size) :
    ∃ i, a.find mem p pos = some (if i ≠ a.size then i else npos) ∧ pos ≤ i ∧ i ≤ a.size ∧
      (∀ i', pos ≤ i' → i' < i → ¬ matches_at mem a p i') ∧
      (matches_at mem a p i ∨ (i = a.size ∧ ∀ i', pos ≤ i' → ¬ matches_at mem a p i')) := by
  simp only [size] at hpos
  obtain ⟨r, hr, h1, h2, h3, h4⟩ := search_outer_spec mem (a.data_ + a.size_) p.data_ p.size_
    (a.data_ + a.size_ - (a.data_ + pos) + 1) (a.data_ + pos) (by omega) (le_refl _)
  have hri : r = a.data_ + (r - a.data_) := by omega
  refine ⟨r - a.data_, ?_, by omega, by simp only [size]; omega, ?_, ?_⟩
  · simp only [basic_string_view.find, search, begin, end_, cbegin, cend, size,
      Nat.add_sub_cancel_left, hr, Option.map_some', ne_eq]
    congr 1
    by_cases hc : r = a.data_ + a.size_
    · rw [if_neg (not_not.2 hc), if_neg (by omega)]
    · rw [if_pos hc, if_pos (by omega)]
  · intro i' hi1 hi2
    rw [← occurs_at_iff_matches_at]
    exact h3 _ (by omega) (by omega)
  · rcases h4 with h4 | ⟨h4, h5⟩
    · left
      rw [← occurs_at_iff_matches_at, ← hri]; exact h4
    · right
      refine ⟨by simp only [size]; omega, fun i' hi' => ?_⟩
      rw [← occurs_at_iff_matches_at]
      exact h5 _ (by omega)

theorem substr_equals_iff {α : Type} [LinearOrder α] {tc : Mem α → Nat → Nat → Nat → Int}
    (htc : lexicographic tc) (mem : Mem α) (a p : basic_string_view) (i : Nat) :
    substr_equals tc mem a p i ↔ matches_at mem a p i := by
  unfold substr_equals matches_at
  constructor
  · rintro ⟨v, hv, he⟩
    unfold substr at hv
    by_cases hi : i > a.size
    · rw [if_pos hi] at hv; cases hv
    · rw [if_neg hi] at hv
      injection hv with hv
      subst hv
      rw [op_eq, decide_eq_true_iff, compare_zero_iff htc] at he
      obtain ⟨h1, h2⟩ := he
      simp only [size, of_ptr_len, index, data] at *
      refine ⟨by omega, fun j hj => ?_⟩
      rw [← h2 j (by omega)]; congr 1; omega
  · rintro ⟨h1, h2⟩
    refine ⟨of_ptr_len (a.data + i) (min p.size (a.size - i)), ?_, ?_⟩
    · unfold substr; rw [if_neg (by omega)]
    · rw [op_eq, decide_eq_true_iff, compare_zero_iff htc]
      simp only [same_units, size, of_ptr_len, index, data] at *
      refine ⟨by omega, fun j hj => ?_⟩
      rw [← h2 j (by omega)]; congr 1; omega

/-- C8: `find` round-trip. For `pos <= a.size()`, `a.find(p, pos)` returns
some `i`, and if `i` is not `npos` then `i >= pos`, `i + p.size() <= a.size()`
and `a.substr(i, p.size()) == p`. -/
theorem find_roundtrip {α : Type} [LinearOrder α]
    (tc : Mem α → Nat → Nat → Nat → Int) (htc : lexicographic tc)
    (mem : Mem α) (a p : basic_string_view) (pos : Nat) (hpos : pos ≤ a.size) :
    ∃ i, a.find mem p pos = some i ∧
      (i ≠ npos → pos ≤ i ∧ i + p.size ≤ a.size ∧
        ∃ v, substr a i p.size = Except.ok v ∧ op_eq tc mem v p = true) := by
  obtain ⟨i, hfind, h1, h2, _, h4⟩ := find_spec mem a p pos hpos
  refine ⟨_, hfind, ?_⟩
  by_cases hi : i ≠ a.size
  · rw [if_pos hi]
    intro _
    rcases h4 with h4 | ⟨h4, _⟩
    · exact ⟨h1, h4.1, (substr_equals_iff htc mem a p i).2 h4⟩
    · exact absurd h4 hi
  · rw [if_neg hi]
    intro hc; exact absurd rfl hc

/-- Witness for C8: "world" (stored at address 11) is found in "hello world" at 6. -/
theorem find_roundtrip_witness :
    lexicographic (char_traits_compare (α := Char)) ∧
    (0 ≤ (⟨0, 11⟩ : basic_string_view).size) ∧
    ∃ i, (⟨0, 11⟩ : basic_string_view).find (mem_of "hello worldworld".toList ' ') ⟨11, 5⟩ 0
        = some i ∧
      (i ≠ npos → 0 ≤ i ∧ i + (⟨11, 5⟩ : basic_string_view).size
          ≤ (⟨0, 11⟩ : basic_string_view).size ∧
        ∃ v, substr ⟨0, 11⟩ i (⟨11, 5⟩ : basic_string_view).size = Except.ok v ∧
          op_eq char_traits_compare (mem_of "hello worldworld".toList ' ') v ⟨11, 5⟩ = true) :=
  ⟨char_traits_compare_lex, by decide,
    find_roundtrip char_traits_compare char_traits_compare_lex
      (mem_of "hello worldworld".toList ' ') ⟨0, 11⟩ ⟨11, 5⟩ 0 (by decide)⟩

/-- C9: for a non-empty pattern `p` and `pos <= a.size()`, `a.find(p, pos)`
returns the smallest index `i >= pos` with `a.substr(i, p.size()) == p`, and
`npos` exactly when there is no such index. `find("world")` on "hello world"
is 6 and `find("x")` on the empty view is `npos`. -/
theorem find_first_occurrence {α : Type} [LinearOrder α]
    (tc : Mem α → Nat → Nat → Nat → Int) (htc : lexicographic tc)
    (mem : Mem α) (a p : basic_string_view) (pos : Nat)
    (hp : 0 < p.size) (hpos : pos ≤ a.size) (hsize : a.size ≤ npos) :
    (∃ r, a.find mem p pos = some r ∧
      ((r ≠ npos ∧ pos ≤ r ∧ substr_equals tc mem a p r ∧
          ∀ i, pos ≤ i → i < r → ¬ substr_equals tc mem a p i) ∨
       (r = npos ∧ ∀ i, pos ≤ i → ¬ substr_equals tc mem a p i)) ∧
      (r = npos ↔ ¬ ∃ i, pos ≤ i ∧ substr_equals tc mem a p i)) ∧
    (⟨0, 11⟩ : basic_string_view).find (mem_of "hello worldworld".toList ' ') ⟨11, 5⟩ 0
      = some 6 ∧
    empty_view.find (mem_of "x".toList ' ') ⟨0, 1⟩ 0 = some npos := by
  refine ⟨?_, by decide, by decide⟩
  obtain ⟨i, hfind, h1, h2, h3, h4⟩ := find_spec mem a p pos hpos
  have hcase : ((if i ≠ a.size then i else npos) ≠ npos ∧ pos ≤ (if i ≠ a.size then i else npos) ∧
      substr_equals tc mem a p (if i ≠ a.size then i else npos) ∧
        ∀ i', pos ≤ i' → i' < (if i ≠ a.size then i else npos) → ¬ substr_equals tc mem a p i') ∨
      ((if i ≠ a.size then i else npos) = npos ∧ ∀ i', pos ≤ i' → ¬ substr_equals tc mem a p i') := by
    rcases h4 with h4 | ⟨h4, h5⟩
    · have hlt : i < a.size := by have := h4.1; omega
      rw [if_pos (by omega)]
      refine Or.inl ⟨by omega, h1, (substr_equals_iff htc mem a p i).2 h4, fun i' hi1 hi2 => ?_⟩
      rw [substr_equals_iff htc]; exact h3 i' hi1 hi2
    · rw [if_neg (not_not.2 h4)]
      refine Or.inr ⟨rfl, fun i' hi1 => ?_⟩
      rw [substr_equals_iff htc]; exact h5 i' hi1
  refine ⟨_, hfind, hcase, ?_⟩
  rcases hcase with ⟨hne, hle, hm, _⟩ | ⟨he, hno⟩
  · exact ⟨fun hc => absurd hc hne, fun hc => absurd ⟨_, hle, hm⟩ hc⟩
  · exact ⟨fun _ => fun ⟨i', hi1, hi2⟩ => hno i' hi1 hi2, fun _ => he⟩

/-- Witness for C9: "lo" (at address 11) in "hello world", searched from 2. -/
theorem find_first_occurrence_witness :
    lexicographic (char_traits_compare (α := Char)) ∧
    0 < (⟨11, 2⟩ : basic_string_view).size ∧ 2 ≤ (⟨0, 11⟩ : basic_string_view).size ∧
    (⟨0, 11⟩ : basic_string_view).size ≤ npos ∧
    ∃ r, (⟨0, 11⟩ : basic_string_view).find (mem_of "hello worldlo".toList ' ') ⟨11, 2⟩ 2
        = some r ∧
      ((r ≠ npos ∧ 2 ≤ r ∧
          substr_equals char_traits_compare (mem_of "hello worldlo".toList ' ') ⟨0, 11⟩ ⟨11, 2⟩ r ∧
          ∀ i, 2 ≤ i → i < r → ¬ substr_equals char_traits_compare
            (mem_of "hello worldlo".toList ' ') ⟨0, 11⟩ ⟨11, 2⟩ i) ∨
       (r = npos ∧ ∀ i, 2 ≤ i → ¬ substr_equals char_traits_compare
            (mem_of "hello worldlo".toList ' ') ⟨0, 11⟩ ⟨11, 2⟩ i)) ∧
      (r = npos ↔ ¬ ∃ i, 2 ≤ i ∧ substr_equals char_traits_compare
            (mem_of "hello worldlo".toList ' ') ⟨0, 11⟩ ⟨11, 2⟩ i) :=
  ⟨char_traits_compare_lex, by decide, by decide, by decide,
    (find_first_occurrence char_traits_compare char_traits_compare_lex
      (mem_of "hello worldlo".toList ' ') ⟨0, 11⟩ ⟨11, 2⟩ 2 (by decide) (by decide)
      (by decide)).1⟩

/-- With an empty pattern and `pos == a.size()`, `std::search` returns
`begin() + pos`, which is `end()`, and `find` takes `end()` for "not found". -/
theorem find_empty_at_end {α : Type} [DecidableEq α] (mem : Mem α)
    (a : basic_string_view) (d : Nat) :
    a.find mem (of_ptr_len d 0) a.size = some npos := by
  simp [basic_string_view.find, search, begin, end_, cbegin, cend, size, of_ptr_len,
    search_outer, search_inner]

/-- Inside the view the empty-pattern law holds: for every empty pattern `p`
and every `pos < a.size()`, `a.find(p, pos)` is `min(pos, a.size())`, which is
`pos`. -/
theorem find_of_empty_pattern_inside {α : Type} [DecidableEq α] (mem : Mem α)
    (a p : basic_string_view) (pos : Nat) (hp : p.size = 0) (hpos : pos < a.size) :
    a.find mem p pos = some (min pos a.size) ∧ min pos a.size = pos := by
  simp only [size] at hp hpos
  have hmin : min pos a.size = pos := by simp only [size]; omega
  refine ⟨?_, hmin⟩
  rw [hmin]
  simp only [basic_string_view.find, search, begin, end_, cbegin, cend, size, hp,
    Nat.add_zero, Nat.sub_self, search_outer, search_inner, Option.map_some']
  rw [if_pos (by omega)]
  congr 1; omega

/-- The empty pattern in "abc" from position 2 is found at 2. -/
theorem find_of_empty_pattern_inside_example :
    (⟨7, 0⟩ : basic_string_view).size = 0 ∧ 2 < (⟨0, 3⟩ : basic_string_view).size ∧
    (⟨0, 3⟩ : basic_string_view).find (mem_of "abc".toList ' ') ⟨7, 0⟩ 2 = some 2 :=
  ⟨by decide, by decide,
    (find_of_empty_pattern_inside (mem_of "abc".toList ' ') ⟨0, 3⟩ ⟨7, 0⟩ 2 (by decide)
      (by decide)).1⟩

/-- C10, the code at the failing inputs: `find("")` on the empty view returns
`npos`, not `min(0, 0) = 0`, and on "abc" with `pos = 3 = a.size()` it returns
`npos`, not 3. `std::search` returns `begin() + pos`, which is `end()`, and
`find` takes `end()` for "not found". -/
theorem find_empty_pattern_failing_inputs :
    (empty_view.find (mem_of "".toList ' ') empty_view 0 = some npos ∧
      npos ≠ min 0 empty_view.size) ∧
    ((⟨0, 3⟩ : basic_string_view).find (mem_of "abc".toList ' ') empty_view 3 = some npos ∧
      npos ≠ min 3 (⟨0, 3⟩ : basic_string_view).size) := by
  decide

/-! ## `std::find_end` and `rfind` -/

theorem search_spec {α : Type} [DecidableEq α] (mem : Mem α) (first last s m : Nat)
    (h : first ≤ last) :
    ∃ r, search mem first last s (s + m) = some r ∧ first ≤ r ∧ r ≤ last ∧
      (∀ i, first ≤ i → i < r → ¬ occurs_at mem last s m i) ∧
      (occurs_at mem last s m r ∨ (r = last ∧ ∀ i, first ≤ i → ¬ occurs_at mem last s m i)) := by
  unfold search
  rw [Nat.add_sub_cancel_left]
  exact search_outer_spec mem last s m (last - first + 1) first h (le_refl _)

theorem find_end_loop_spec {α : Type} [DecidableEq α] (mem : Mem α) (last s m : Nat)
    (hm : 0 < m) (fuel first result : Nat) (h : first ≤ last) (hf : last - first + 1 ≤ fuel) :
    ∃ r, find_end_loop mem last s (s + m) fuel first result = some r ∧
      ((∀ i, first ≤ i → ¬ occurs_at mem last s m i) → r = result) ∧
      ((∃ i, first ≤ i ∧ occurs_at mem last s m i) →
        first ≤ r ∧ occurs_at mem last s m r ∧
          ∀ i, first ≤ i → occurs_at mem last s m i → i ≤ r) := by
  induction fuel generalizing first result with
  | zero => omega
  | succ fuel ih =>
    obtain ⟨nr, hnr, h1, h2, h3, h4⟩ := search_spec mem first last s m h
    rw [find_end_loop, hnr]
    by_cases hl : nr = last
    · have hno : ∀ i, first ≤ i → ¬ occurs_at mem last s m i := by
        rcases h4 with h4 | ⟨_, h4⟩
        · have := h4.1; omega
        · exact h4
      refine ⟨result, ?_, fun _ => rfl, ?_⟩
      · simp only [hl, if_true]
      · rintro ⟨i, hi, hocc⟩; exact absurd hocc (hno i hi)
    · have hocc : occurs_at mem last s m nr := by
        rcases h4 with h4 | ⟨h4, _⟩
        · exact h4
        · exact absurd h4 hl
      obtain ⟨r, hr, hr1, hr2⟩ := ih (nr + 1) nr (by omega) (by omega)
      refine ⟨r, ?_, ?_, ?_⟩
      · simp only [hl, if_false]; exact hr
      · intro hno; exact absurd hocc (hno nr h1)
      · intro _
        by_cases hex : ∃ i, nr + 1 ≤ i ∧ occurs_at mem last s m i
        · obtain ⟨hle, ho, hmax⟩ := hr2 hex
          refine ⟨by omega, ho, fun i hi hoi => ?_⟩
          by_cases hc : nr + 1 ≤ i
          · exact hmax i hc hoi
          · omega
        · have hnone : ∀ i, nr + 1 ≤ i → ¬ occurs_at mem last s m i :=
            fun i hi hoi => hex ⟨i, hi, hoi⟩
          rw [hr1 hnone]
          refine ⟨h1, hocc, fun i hi hoi => ?_⟩
          by_contra hc
          exact hnone i (by omega) hoi

theorem std_find_end_spec {α : Type} [DecidableEq α] (mem : Mem α) (first last s m : Nat)
    (hm : 0 < m) (h : first ≤ last) :
    ∃ r, std_find_end mem first last s (s + m) = some r ∧
      ((∀ i, first ≤ i → ¬ occurs_at mem last s m i) → r = last) ∧
      ((∃ i, first ≤ i ∧ occurs_at mem last s m i) →
        first ≤ r ∧ occurs_at mem last s m r ∧
          ∀ i, first ≤ i → occurs_at mem last s m i → i ≤ r) := by
  unfold std_find_end
  rw [if_neg (by omega)]
  exact find_end_loop_spec mem last s m hm (last - first + 1) first last h (le_refl _)

theorem occurs_at_iff_matches_within {α : Type} (mem : Mem α) (a p : basic_string_view)
    (w i : Nat) :
    occurs_at mem (a.data_ + w) p.data_ p.size_ (a.data_ + i) ↔ matches_within mem a p w i := by
  unfold occurs_at matches_within
  simp only [size, index]
  constructor
  · rintro ⟨h1, h2⟩
    refine ⟨by omega, fun j hj => ?_⟩
    rw [← h2 j hj]; congr 1; omega
  · rintro ⟨h1, h2⟩
    refine ⟨by omega, fun j hj => ?_⟩
    rw [← h2 j hj]; congr 1; omega

/-- What `rfind` returns for a non-empty pattern: with the window end
`w = a.size()` for `pos == npos` and `w = pos` otherwise, the greatest index
where the pattern occurs and ends by `w`, and `npos` when there is none. -/
theorem rfind_spec {α : Type} [DecidableEq α] (mem : Mem α) (a p : basic_string_view)
    (pos : Nat) (hp : 0 < p.size) :
    ∃ r, a.rfind mem p pos = some r ∧
      ((∀ i, ¬ matches_within mem a p (if pos = npos then a.size else pos) i) → r = npos) ∧
      ((∃ i, matches_within mem a p (if pos = npos then a.size else pos) i) →
        matches_within mem a p (if pos = npos then a.size else pos) r ∧
          ∀ i, matches_within mem a p (if pos = npos then a.size else pos) i → i ≤ r) := by
  simp only [size] at hp
  have hlast : (if pos = npos then a.end_ else a.begin + pos) =
      a.data_ + (if pos = npos then a.size else pos) := by
    by_cases hc : pos = npos
    · simp only [hc, if_true, end_, cend, cbegin, size]
    · simp only [hc, if_false, begin, cbegin]
  generalize hw : (if pos = npos then a.size else pos) = w at hlast ⊢
  obtain ⟨r, hr, h1, h2⟩ := std_find_end_spec mem a.data_ (a.data_ + w) p.data_ p.size_ hp
    (by omega)
  have hfind : a.rfind mem p pos =
      some (if r ≠ a.data_ + w then r - a.data_ else npos) := by
    simp only [basic_string_view.rfind, hlast]
    simp only [begin, end_, cend, cbegin, size, hr, Option.map_some']
  refine ⟨_, hfind, ?_, ?_⟩
  · intro hno
    have : r = a.data_ + w := h1 (fun i hi hocc => by
      have hi' : i = a.data_ + (i - a.data_) := by omega
      rw [hi', occurs_at_iff_matches_within] at hocc
      exact hno _ hocc)
    rw [if_neg (not_not.2 this)]
  · rintro ⟨i, hi⟩
    obtain ⟨hle, hocc, hmax⟩ := h2 ⟨a.data_ + i, by omega,
      (occurs_at_iff_matches_within mem a p w i).2 hi⟩
    have hne : r ≠ a.data_ + w := by have := hocc.1; omega
    have hr' : r = a.data_ + (r - a.data_) := by omega
    rw [if_pos hne]
    refine ⟨?_, fun i' hi' => ?_⟩
    · rw [← occurs_at_iff_matches_within, ← hr']; exact hocc
    · have := hmax (a.data_ + i') (by omega)
        ((occurs_at_iff_matches_within mem a p w i').2 hi')
      omega

theorem matches_within_iff {α : Type} [LinearOrder α] {tc : Mem α → Nat → Nat → Nat → Int}
    (htc : lexicographic tc) (mem : Mem α) (a p : basic_string_view) (w i : Nat)
    (hw : w ≤ a.size) :
    matches_within mem a p w i ↔ i + p.size ≤ w ∧ substr_equals tc mem a p i := by
  rw [substr_equals_iff htc]
  unfold matches_within matches_at
  constructor
  · rintro ⟨h1, h2⟩; exact ⟨h1, by omega, h2⟩
  · rintro ⟨h1, _, h2⟩; exact ⟨h1, h2⟩

/-- The two outcomes of `rfind` for a non-empty pattern and a window end `w`
inside the view, in terms of `a.substr(i, p.size()) == p`. -/
theorem rfind_cases {α : Type} [LinearOrder α] {tc : Mem α → Nat → Nat → Nat → Int}
    (htc : lexicographic tc) (mem : Mem α) (a p : basic_string_view) (pos w : Nat)
    (hp : 0 < p.size) (hw : w ≤ a.size) (hsize : a.size ≤ npos)
    (hwdef : (if pos = npos then a.size else pos) = w) :
    ∃ r, a.rfind mem p pos = some r ∧
      ((r ≠ npos ∧ r + p.size ≤ w ∧ substr_equals tc mem a p r ∧
          ∀ i, i + p.size ≤ w → substr_equals tc mem a p i → i ≤ r) ∨
       (r = npos ∧ ∀ i, i + p.size ≤ w → ¬ substr_equals tc mem a p i)) := by
  obtain ⟨r, hr, h1, h2⟩ := rfind_spec mem a p pos hp
  rw [hwdef] at h1 h2
  refine ⟨r, hr, ?_⟩
  by_cases hex : ∃ i, matches_within mem a p w i
  · obtain ⟨hm, hmax⟩ := h2 hex
    have hm' := (matches_within_iff htc mem a p w r hw).1 hm
    refine Or.inl ⟨by have := hm'.1; omega, hm'.1, hm'.2, fun i hi1 hi2 => ?_⟩
    exact hmax i ((matches_within_iff htc mem a p w i hw).2 ⟨hi1, hi2⟩)
  · refine Or.inr ⟨h1 (fun i hi => hex ⟨i, hi⟩), fun i hi1 hi2 => ?_⟩
    exact hex ⟨i, (matches_within_iff htc mem a p w i hw).2 ⟨hi1, hi2⟩⟩

/-- C11: for a non-empty pattern `p`, `a.rfind(p)` with the default position
`npos` returns the greatest index `i` with `a.substr(i, p.size()) == p`, and
`npos` exactly when `p` does not occur in `a`; a result other than `npos`
satisfies `a.substr(i, p.size()) == p`. `rfind("o")` on "hello world" is 7. -/
theorem rfind_default_last_occurrence {α : Type} [LinearOrder α]
    (tc : Mem α → Nat → Nat → Nat → Int) (htc : lexicographic tc)
    (mem : Mem α) (a p : basic_string_view) (hp : 0 < p.size) (hsize : a.size ≤ npos) :
    (∃ r, a.rfind mem p npos = some r ∧
      ((r ≠ npos ∧ substr_equals tc mem a p r ∧
          ∀ i, substr_equals tc mem a p i → i ≤ r) ∨
       (r = npos ∧ ∀ i, ¬ substr_equals tc mem a p i)) ∧
      (r = npos ↔ ¬ ∃ i, substr_equals tc mem a p i) ∧
      (r ≠ npos → substr_equals tc mem a p r)) ∧
    (⟨0, 11⟩ : basic_string_view).rfind (mem_of "hello worldo".toList ' ') ⟨11, 1⟩ npos
      = some 7 := by
  refine ⟨?_, by decide⟩
  obtain ⟨r, hr, hcase⟩ := rfind_cases htc mem a p npos a.size hp (le_refl _) hsize
    (by rw [if_pos rfl])
  have hin : ∀ i, substr_equals tc mem a p i → i + p.size ≤ a.size := fun i hi =>
    ((substr_equals_iff htc mem a p i).1 hi).1
  refine ⟨r, hr, ?_, ?_, ?_⟩
  · rcases hcase with ⟨h1, _, h3, h4⟩ | ⟨h1, h2⟩
    · exact Or.inl ⟨h1, h3, fun i hi => h4 i (hin i hi) hi⟩
    · exact Or.inr ⟨h1, fun i hi => h2 i (hin i hi) hi⟩
  · rcases hcase with ⟨h1, _, h3, _⟩ | ⟨h1, h2⟩
    · exact ⟨fun hc => absurd hc h1, fun hc => absurd ⟨r, h3⟩ hc⟩
    · exact ⟨fun _ => fun ⟨i, hi⟩ => h2 i (hin i hi) hi, fun _ => h1⟩
  · intro hne
    rcases hcase with ⟨_, _, h3, _⟩ | ⟨h1, _⟩
    · exact h3
    · exact absurd h1 hne

/-- Witness for C11: "l" (at address 11) in "hello world". -/
theorem rfind_default_last_occurrence_witness :
    lexicographic (char_traits_compare (α := Char)) ∧
    0 < (⟨11, 1⟩ : basic_string_view).size ∧ (⟨0, 11⟩ : basic_string_view).size ≤ npos ∧
    ∃ r, (⟨0, 11⟩ : basic_string_view).rfind (mem_of "hello worldl".toList ' ') ⟨11, 1⟩ npos
        = some r ∧
      (r ≠ npos → substr_equals char_traits_compare (mem_of "hello worldl".toList ' ')
        ⟨0, 11⟩ ⟨11, 1⟩ r) := by
  obtain ⟨r, hr, _, _, h⟩ := (rfind_default_last_occurrence char_traits_compare
    char_traits_compare_lex (mem_of "hello worldl".toList ' ') ⟨0, 11⟩ ⟨11, 1⟩ (by decide)
    (by decide)).1
  exact ⟨char_traits_compare_lex, by decide, by decide, r, hr, h⟩

/-- C12, the code at the failing inputs. On "hello world" with the pattern
"o" and `pos = 7`, index 7 is at most `min(pos, a.size() - p.size())` and
`a.substr(7, 1) == "o"`, yet `rfind` returns 4; with the pattern "h" and
`pos = 0`, index 0 is at most `min(pos, a.size() - p.size())` and
`a.substr(0, 1) == "h"`, yet `rfind` returns `npos`. -/
theorem rfind_position_failing_inputs :
    ((⟨0, 11⟩ : basic_string_view).rfind (mem_of "hello worldo".toList ' ') ⟨11, 1⟩ 7
        = some 4 ∧
      7 ≤ min 7 ((⟨0, 11⟩ : basic_string_view).size - (⟨11, 1⟩ : basic_string_view).size) ∧
      substr_equals char_traits_compare (mem_of "hello worldo".toList ' ') ⟨0, 11⟩ ⟨11, 1⟩ 7 ∧
      4 < 7) ∧
    ((⟨0, 11⟩ : basic_string_view).rfind (mem_of "hello worldh".toList ' ') ⟨11, 1⟩ 0
        = some npos ∧
      0 ≤ min 0 ((⟨0, 11⟩ : basic_string_view).size - (⟨11, 1⟩ : basic_string_view).size) ∧
      substr_equals char_traits_compare (mem_of "hello worldh".toList ' ') ⟨0, 11⟩ ⟨11, 1⟩ 0 ∧
      0 ≠ npos) :=
  ⟨⟨by decide, by decide, ⟨⟨7, 1⟩, rfl, by decide⟩, by decide⟩,
    ⟨by decide, by decide, ⟨⟨0, 1⟩, rfl, by decide⟩, by decide⟩⟩

/-- C13, the code at the failing inputs: with an empty pattern `rfind` returns
`npos` for every view and every `pos`, not `min(pos, a.size())`:
`std::find_end` returns `last` for an empty pattern and `rfind` takes `last`
for "not found". On "abc", `rfind("")` is `npos`, not 3. -/
theorem rfind_empty_pattern_is_npos {α : Type} [DecidableEq α] (mem : Mem α)
    (a : basic_string_view) (d pos : Nat) :
    a.rfind mem (of_ptr_len d 0) pos = some npos ∧
    (⟨0, 3⟩ : basic_string_view).rfind (mem_of "abc".toList ' ') empty_view npos = some npos ∧
    npos ≠ min npos (⟨0, 3⟩ : basic_string_view).size := by
  refine ⟨?_, by decide, by decide⟩
  simp [basic_string_view.rfind, std_find_end, begin, end_, cbegin, cend, size, of_ptr_len]

/-- C20: as implemented, for a non-empty pattern `p` and `pos <= a.size()`,
`a.rfind(p, pos)` returns the greatest index `i` with `i + p.size() <= pos`
and `a.substr(i, p.size()) == p`, and `npos` when no occurrence of `p` lies
inside the first `pos` units of `a`. -/
theorem rfind_explicit_position {α : Type} [LinearOrder α]
    (tc : Mem α → Nat → Nat → Nat → Int) (htc : lexicographic tc)
    (mem : Mem α) (a p : basic_string_view) (pos : Nat)
    (hp : 0 < p.size) (hpos : pos ≤ a.size) (hsize : a.size ≤ npos) :
    ∃ r, a.rfind mem p pos = some r ∧
      ((∃ i, i + p.size ≤ pos ∧ substr_equals tc mem a p i) →
        r ≠ npos ∧ r + p.size ≤ pos ∧ substr_equals tc mem a p r ∧
          ∀ i, i + p.size ≤ pos → substr_equals tc mem a p i → i ≤ r) ∧
      ((¬ ∃ i, i + p.size ≤ pos ∧ substr_equals tc mem a p i) → r = npos) := by
  obtain ⟨r, hr, hcase⟩ := rfind_cases htc mem a p pos pos hp hpos hsize
    (by by_cases hc : pos = npos
        · rw [if_pos hc]; omega
        · rw [if_neg hc])
  refine ⟨r, hr, ?_, ?_⟩
  · rintro ⟨i, hi1, hi2⟩
    rcases hcase with h | ⟨_, h⟩
    · exact h
    · exact absurd hi2 (h i hi1)
  · intro hno
    rcases hcase with ⟨_, h2, h3, _⟩ | ⟨h, _⟩
    · exact absurd ⟨r, h2, h3⟩ hno
    · exact h

/-- Witness for C20: "lo" (at address 11) in "hello world" with `pos = 5`. -/
theorem rfind_explicit_position_witness :
    lexicographic (char_traits_compare (α := Char)) ∧
    0 < (⟨11, 2⟩ : basic_string_view).size ∧ 5 ≤ (⟨0, 11⟩ : basic_string_view).size ∧
    (⟨0, 11⟩ : basic_string_view).size ≤ npos ∧
    (⟨0, 11⟩ : basic_string_view).rfind (mem_of "hello worldlo".toList ' ') ⟨11, 2⟩ 5
      = some 3 ∧
    ∃ r, (⟨0, 11⟩ : basic_string_view).rfind (mem_of "hello worldlo".toList ' ') ⟨11, 2⟩ 5
        = some r ∧
      ((¬ ∃ i, i + (⟨11, 2⟩ : basic_string_view).size ≤ 5 ∧
          substr_equals char_traits_compare (mem_of "hello worldlo".toList ' ')
            ⟨0, 11⟩ ⟨11, 2⟩ i) → r = npos) := by
  obtain ⟨r, hr, _, h⟩ := rfind_explicit_position char_traits_compare char_traits_compare_lex
    (mem_of "hello worldlo".toList ' ') ⟨0, 11⟩ ⟨11, 2⟩ 5 (by decide) (by decide) (by decide)
  exact ⟨char_traits_compare_lex, by decide, by decide, by decide, by decide, r, hr, h⟩

/-! ## `std::find_if` and the forward character-set searches -/

theorem find_if_loop_spec {α : Type} (mem : Mem α) (q : α → Bool) (first k : Nat) :
    first ≤ find_if_loop mem q first k ∧ find_if_loop mem q first k ≤ first + k ∧
    (∀ i, first ≤ i → i < find_if_loop mem q first k → q (mem i) = false) ∧
    (find_if_loop mem q first k < first + k → q (mem (find_if_loop mem q first k)) = true) := by
  induction k generalizing first with
  | zero =>
    refine ⟨le_refl _, le_refl _, fun i h1 h2 => ?_, fun h => ?_⟩
    · rw [find_if_loop] at h2; omega
    · rw [find_if_loop] at h; omega
  | succ k ih =>
    rw [find_if_loop]
    by_cases hq : q (mem first) = true
    · rw [if_pos hq]
      exact ⟨le_refl _, by omega, fun i h1 h2 => by omega, fun _ => hq⟩
    · rw [if_neg hq]
      obtain ⟨h1, h2, h3, h4⟩ := ih (first + 1)
      refine ⟨by omega, by omega, fun i hi1 hi2 => ?_, fun h => h4 (by omega)⟩
      by_cases hi : i = first
      · rw [hi]; exact Bool.eq_false_iff.2 hq
      · exact h3 i (by omega) hi2

theorem is_one_of_iff {α : Type} [DecidableEq α] (mem : Mem α) (c : α) (s_it k : Nat) :
    is_one_of mem c s_it k = true ↔ ∃ j, j < k ∧ c = mem (s_it + j) := by
  induction k generalizing s_it with
  | zero => simp [is_one_of]
  | succ k ih =>
    rw [is_one_of]
    by_cases hc : c = mem s_it
    · rw [if_pos hc]
      exact ⟨fun _ => ⟨0, by omega, hc⟩, fun _ => rfl⟩
    · rw [if_neg hc, ih]
      constructor
      · rintro ⟨j, hj, he⟩
        exact ⟨j + 1, by omega, by rw [he]; congr 1; omega⟩
      · rintro ⟨j, hj, he⟩
        cases j with
        | zero => exact absurd he hc
        | succ j => exact ⟨j, by omega, by rw [he]; congr 1; omega⟩

theorem is_one_of_view_iff {α : Type} [DecidableEq α] (mem : Mem α) (s : basic_string_view)
    (c : α) : is_one_of mem c s.begin (s.end_ - s.begin) = true ↔ unit_in mem s c := by
  rw [is_one_of_iff]
  simp only [unit_in, begin, end_, cend, cbegin, size, index, Nat.add_sub_cancel_left]

theorem not_in_view_iff {α : Type} [DecidableEq α] (mem : Mem α) (s : basic_string_view)
    (c : α) : not_in_view mem s c = true ↔ ¬ unit_in mem s c := by
  obtain ⟨h1, h2, h3, h4⟩ := find_if_loop_spec mem (fun x => decide (x = c)) s.data_ s.size_
  simp only [not_in_view, std_find, std_find_if, unit_in, begin, end_, cend, cbegin, size,
    index, Nat.add_sub_cancel_left, Nat.le_add_right, if_true, decide_eq_true_iff,
    Option.some.injEq]
  generalize find_if_loop mem (fun x => decide (x = c)) s.data_ s.size_ = r at h1 h2 h3 h4 ⊢
  constructor
  · intro he
    rintro ⟨j, hj, hc⟩
    have := h3 (s.data_ + j) (by omega) (by omega)
    rw [← hc] at this
    simp at this
  · intro hno
    by_contra hne
    have hq := h4 (by omega)
    rw [decide_eq_true_iff] at hq
    refine hno ⟨r - s.data_, by omega, ?_⟩
    rw [show s.data_ + (r - s.data_) = r by omega]
    exact hq.symm

/-- What a forward scan for a unit satisfying `q` returns, as an index or `npos`. -/
theorem forward_scan_spec {α : Type} (mem : Mem α) (q : α → Bool) (a : basic_string_view)
    (pos : Nat) (hpos : pos ≤ a.size) (hsize : a.size ≤ npos) :
    ∃ r, (std_find_if mem q (a.begin + pos) a.end_).map
        (fun it => if it ≠ a.end_ then it - a.begin else npos) = some r ∧
      ((r ≠ npos ∧ pos ≤ r ∧ r < a.size ∧ q (index mem a r) = true ∧
          ∀ i, pos ≤ i → i < r → q (index mem a i) = false) ∨
       (r = npos ∧ ∀ i, pos ≤ i → i < a.size → q (index mem a i) = false)) := by
  simp only [size] at hpos hsize
  obtain ⟨h1, h2, h3, h4⟩ := find_if_loop_spec mem q (a.data_ + pos)
    (a.data_ + a.size_ - (a.data_ + pos))
  simp only [std_find_if, begin, end_, cend, cbegin, size, index,
    show a.data_ + pos ≤ a.data_ + a.size_ from by omega, if_true, Option.map_some']
  generalize find_if_loop mem q (a.data_ + pos) (a.data_ + a.size_ - (a.data_ + pos)) = it
    at h1 h2 h3 h4
  refine ⟨_, rfl, ?_⟩
  by_cases hit : it = a.data_ + a.size_
  · right
    rw [if_neg (not_not.2 hit)]
    exact ⟨rfl, fun i hi1 hi2 => h3 (a.data_ + i) (by omega) (by omega)⟩
  · left
    rw [if_pos hit]
    have hq := h4 (by omega)
    refine ⟨by omega, by omega, by omega, ?_, fun i hi1 hi2 => h3 (a.data_ + i) (by omega)
      (by omega)⟩
    rw [show a.data_ + (it - a.data_) = it by omega]; exact hq

/-- C14: for `pos <= a.size()`, `a.find_first_of(s, pos)` returns the smallest
index `i` with `pos <= i < a.size()` such that `a[i]` occurs in `s`, and `npos`
exactly when there is no such index (so always `npos` for an empty set).
`find_first_of("lo")` on "hello world" is 2. -/
theorem find_first_of_spec {α : Type} [DecidableEq α] (mem : Mem α)
    (a s : basic_string_view) (pos : Nat) (hpos : pos ≤ a.size) (hsize : a.size ≤ npos) :
    (∃ r, a.find_first_of mem s pos = some r ∧
      ((r ≠ npos ∧ pos ≤ r ∧ r < a.size ∧ unit_in mem s (index mem a r) ∧
          ∀ i, pos ≤ i → i < r → ¬ unit_in mem s (index mem a i)) ∨
       (r = npos ∧ ∀ i, pos ≤ i → i < a.size → ¬ unit_in mem s (index mem a i))) ∧
      (r = npos ↔ ¬ ∃ i, pos ≤ i ∧ i < a.size ∧ unit_in mem s (index mem a i)) ∧
      (s.size = 0 → r = npos)) ∧
    (⟨0, 11⟩ : basic_string_view).find_first_of (mem_of "hello worldlo".toList ' ') ⟨11, 2⟩ 0
      = some 2 := by
  refine ⟨?_, by decide⟩
  obtain ⟨r, hr, hcase⟩ := forward_scan_spec mem
    (fun c => is_one_of mem c s.begin (s.end_ - s.begin)) a pos hpos hsize
  have hcase' : (r ≠ npos ∧ pos ≤ r ∧ r < a.size ∧ unit_in mem s (index mem a r) ∧
          ∀ i, pos ≤ i → i < r → ¬ unit_in mem s (index mem a i)) ∨
       (r = npos ∧ ∀ i, pos ≤ i → i < a.size → ¬ unit_in mem s (index mem a i)) := by
    rcases hcase with ⟨h1, h2, h3, h4, h5⟩ | ⟨h1, h2⟩
    · refine Or.inl ⟨h1, h2, h3, (is_one_of_view_iff mem s _).1 h4, fun i hi1 hi2 hin => ?_⟩
      have := h5 i hi1 hi2
      rw [(is_one_of_view_iff mem s _).2 hin] at this
      cases this
    · refine Or.inr ⟨h1, fun i hi1 hi2 hin => ?_⟩
      have := h2 i hi1 hi2
      rw [(is_one_of_view_iff mem s _).2 hin] at this
      cases this
  refine ⟨r, hr, hcase', ?_, ?_⟩
  · rcases hcase' with ⟨h1, h2, h3, h4, _⟩ | ⟨h1, h2⟩
    · exact ⟨fun hc => absurd hc h1, fun hc => absurd ⟨r, h2, h3, h4⟩ hc⟩
    · exact ⟨fun _ => fun ⟨i, hi1, hi2, hi3⟩ => h2 i hi1 hi2 hi3, fun _ => h1⟩
  · intro hs
    rcases hcase' with ⟨_, _, _, ⟨j, hj, _⟩, _⟩ | ⟨h1, _⟩
    · omega
    · exact h1

/-- Witness for C14: the set "ol" (at address 11) in "hello world" from 5. -/
theorem find_first_of_spec_witness :
    5 ≤ (⟨0, 11⟩ : basic_string_view).size ∧ (⟨0, 11⟩ : basic_string_view).size ≤ npos ∧
    (⟨0, 11⟩ : basic_string_view).find_first_of (mem_of "hello worldol".toList ' ') ⟨11, 2⟩ 5
      = some 7 ∧
    ∃ r, (⟨0, 11⟩ : basic_string_view).find_first_of (mem_of "hello worldol".toList ' ')
        ⟨11, 2⟩ 5 = some r ∧
      (r = npos ↔ ¬ ∃ i, 5 ≤ i ∧ i < (⟨0, 11⟩ : basic_string_view).size ∧
        unit_in (mem_of "hello worldol".toList ' ') ⟨11, 2⟩
          (index (mem_of "hello worldol".toList ' ') ⟨0, 11⟩ i)) := by
  obtain ⟨r, hr, _, h, _⟩ := (find_first_of_spec (mem_of "hello worldol".toList ' ')
    ⟨0, 11⟩ ⟨11, 2⟩ 5 (by decide) (by decide)).1
  exact ⟨by decide, by decide, by decide, r, hr, h⟩

/-- C16: for `pos <= a.size()`, `a.find_first_not_of(s, pos)` returns the
smallest index `i` with `pos <= i < a.size()` such that `a[i]` does not occur
in `s`, and `npos` exactly when every unit of `a` from `pos` on occurs in `s`.
`find_first_not_of("helo wrd")` on "hello world" is `npos`. -/
theorem find_first_not_of_spec {α : Type} [DecidableEq α] (mem : Mem α)
    (a s : basic_string_view) (pos : Nat) (hpos : pos ≤ a.size) (hsize : a.size ≤ npos) :
    (∃ r, a.find_first_not_of mem s pos = some r ∧
      ((r ≠ npos ∧ pos ≤ r ∧ r < a.size ∧ ¬ unit_in mem s (index mem a r) ∧
          ∀ i, pos ≤ i → i < r → unit_in mem s (index mem a i)) ∨
       (r = npos ∧ ∀ i, pos ≤ i → i < a.size → unit_in mem s (index mem a i))) ∧
      (r = npos ↔ ∀ i, pos ≤ i → i < a.size → unit_in mem s (index mem a i))) ∧
    (⟨0, 11⟩ : basic_string_view).find_first_not_of
      (mem_of "hello worldhelo wrd".toList ' ') ⟨11, 8⟩ 0 = some npos := by
  refine ⟨?_, by decide⟩
  obtain ⟨r, hr, hcase⟩ := forward_scan_spec mem (not_in_view mem s) a pos hpos hsize
  have hin : ∀ c, not_in_view mem s c = false → unit_in mem s c := by
    intro c hc
    by_contra hno
    rw [(not_in_view_iff mem s c).2 hno] at hc
    cases hc
  have hcase' : (r ≠ npos ∧ pos ≤ r ∧ r < a.size ∧ ¬ unit_in mem s (index mem a r) ∧
          ∀ i, pos ≤ i → i < r → unit_in mem s (index mem a i)) ∨
       (r = npos ∧ ∀ i, pos ≤ i → i < a.size → unit_in mem s (index mem a i)) := by
    rcases hcase with ⟨h1, h2, h3, h4, h5⟩ | ⟨h1, h2⟩
    · exact Or.inl ⟨h1, h2, h3, (not_in_view_iff mem s _).1 h4,
        fun i hi1 hi2 => hin _ (h5 i hi1 hi2)⟩
    · exact Or.inr ⟨h1, fun i hi1 hi2 => hin _ (h2 i hi1 hi2)⟩
  refine ⟨r, hr, hcase', ?_⟩
  rcases hcase' with ⟨h1, h2, h3, h4, _⟩ | ⟨h1, h2⟩
  · exact ⟨fun hc => absurd hc h1, fun hc => absurd (hc r h2 h3) h4⟩
  · exact ⟨fun _ => h2, fun _ => h1⟩

/-- Witness for C16: skipping the set "hel" (at address 11) in "hello world". -/
theorem find_first_not_of_spec_witness :
    0 ≤ (⟨0, 11⟩ : basic_string_view).size ∧ (⟨0, 11⟩ : basic_string_view).size ≤ npos ∧
    (⟨0, 11⟩ : basic_string_view).find_first_not_of (mem_of "hello worldhel".toList ' ')
      ⟨11, 3⟩ 0 = some 4 ∧
    ∃ r, (⟨0, 11⟩ : basic_string_view).find_first_not_of (mem_of "hello worldhel".toList ' ')
        ⟨11, 3⟩ 0 = some r ∧
      (r = npos ↔ ∀ i, 0 ≤ i → i < (⟨0, 11⟩ : basic_string_view).size →
        unit_in (mem_of "hello worldhel".toList ' ') ⟨11, 3⟩
          (index (mem_of "hello worldhel".toList ' ') ⟨0, 11⟩ i)) := by
  obtain ⟨r, hr, _, h⟩ := (find_first_not_of_spec (mem_of "hello worldhel".toList ' ')
    ⟨0, 11⟩ ⟨11, 3⟩ 0 (by decide) (by decide)).1
  exact ⟨by decide, by decide, by decide, r, hr, h⟩

/-! ## Modifiers -/

/-- C18: for `n <= a.size()`, after `a.remove_prefix(n)` the view is the view
`a.substr(n)` returns (length `a.size() - n`, `i`-th unit the original's
`(n + i)`-th), and after `a.remove_suffix(n)` it is the view
`a.substr(0, a.size() - n)` returns (same start, length `a.size() - n`); both
only change the pair `(data_, size_)`, so every unit read through the view is
a unit of the unchanged storage. -/
theorem remove_prefix_suffix_spec (a : basic_string_view) (n : Nat)
    (hn : n ≤ a.size) (hsize : a.size ≤ npos) :
    (substr a n npos = Except.ok ( basic_string_view.remove_prefix a n) ∧
      size ( basic_string_view.remove_prefix a n) = a.size - n ∧
      ∀ (α : Type) (mem : Mem α) (i : Nat), i < a.size - n →
        index mem ( basic_string_view.remove_prefix a n) i = index mem a (n + i)) ∧
    (substr a 0 (a.size - n) = Except.ok (a.remove_suffix n) ∧
      (a.remove_suffix n).data = a.data ∧
      (a.remove_suffix n).size = a.size - n ∧
      ∀ (α : Type) (mem : Mem α) (i : Nat), i < a.size - n →
        index mem (a.remove_suffix n) i = index mem a i) := by
  simp only [size, npos] at hn hsize
  have hwrap : (a.size_ + 2 ^ 64 - n) % 2 ^ 64 = a.size_ - n := by omega
  refine ⟨⟨?_, ?_, ?_⟩, ⟨?_, rfl, ?_, ?_⟩⟩
  · simp only [substr, size, data, npos, of_ptr_len, basic_string_view.remove_prefix, hwrap]
    rw [if_neg (by omega)]
    congr 2
    omega
  · simp only [size, basic_string_view.remove_prefix, hwrap]
  · intro α mem i _
    simp only [index, basic_string_view.remove_prefix]
    congr 1; omega
  · simp only [substr, size, data, of_ptr_len, basic_string_view.remove_suffix, hwrap]
    rw [if_neg (by omega)]
    congr 2
    omega
  · simp only [size, basic_string_view.remove_suffix, hwrap]
  · intro α mem i _
    rfl

/-- Witness for C18: dropping 2 units from a view of 5 units at address 3. -/
theorem remove_prefix_suffix_spec_witness :
    2 ≤ (⟨3, 5⟩ : basic_string_view).size ∧ (⟨3, 5⟩ : basic_string_view).size ≤ npos ∧
    substr ⟨3, 5⟩ 2 npos = Except.ok ( basic_string_view.remove_prefix ⟨3, 5⟩ 2) ∧
    basic_string_view.remove_prefix ⟨3, 5⟩ 2 = ⟨5, 3⟩ ∧
    substr ⟨3, 5⟩ 0 ((⟨3, 5⟩ : basic_string_view).size - 2) =
      Except.ok ((⟨3, 5⟩ : basic_string_view).remove_suffix 2) ∧
    (⟨3, 5⟩ : basic_string_view).remove_suffix 2 = ⟨3, 3⟩ :=
  ⟨by decide, by decide,
    (remove_prefix_suffix_spec ⟨3, 5⟩ 2 (by decide) (by decide)).1.1, by decide,
    (remove_prefix_suffix_spec ⟨3, 5⟩ 2 (by decide) (by decide)).2.1, by decide⟩

/-! ## The backward character-set searches -/

theorem find_if_reverse_loop_spec {α : Type} (mem : Mem α) (q : α → Bool) (base : Int)
    (k : Nat) (hk : (k : Int) ≤ base) :
    ∃ r, find_if_reverse_loop mem q base k = some r ∧ base - k ≤ r ∧ r ≤ base ∧
      (∀ b : Int, r < b → b ≤ base → q (mem (b - 1).toNat) = false) ∧
      (base - k < r → q (mem (r - 1).toNat) = true) := by
  induction k generalizing base with
  | zero =>
    exact ⟨base, rfl, by omega, le_refl _, fun b h1 h2 => by omega, fun h => by omega⟩
  | succ k ih =>
    rw [find_if_reverse_loop, if_neg (by omega)]
    by_cases hq : q (mem (base - 1).toNat) = true
    · rw [if_pos hq]
      exact ⟨base, rfl, by omega, le_refl _, fun b h1 h2 => by omega, fun _ => hq⟩
    · rw [if_neg hq]
      obtain ⟨r, hr, h1, h2, h3, h4⟩ := ih (base - 1) (by omega)
      refine ⟨r, hr, by omega, by omega, fun b hb1 hb2 => ?_, fun h => h4 (by omega)⟩
      by_cases hb : b = base
      · rw [hb]; exact Bool.eq_false_iff.2 hq
      · exact h3 b hb1 (by omega)

/-- What the backward scans return for an explicit `pos <= a.size()`: the scan
covers the indices `pos, ..., a.size() - 1`, from the last one down. It
returns the greatest of them whose unit satisfies `q`; when there is none it
returns `pos - 1` for `pos > 0` and `npos` for `pos == 0`. -/
theorem reverse_scan_spec {α : Type} (mem : Mem α) (q : α → Bool) (a : basic_string_view)
    (pos : Nat) (hpos : pos ≤ a.size) (hsize : a.size ≤ npos) (hdiff : pos < 2 ^ 63) :
    ∃ r, (std_find_if_reverse mem q (a.cend : Int) ((a.cbegin : Int) + to_difference pos)).map
        (fun it => if it ≠ (a.cbegin : Int) then to_size_type (it - (a.begin : Int) - 1)
          else npos) = some r ∧
      ((pos ≤ r ∧ r < a.size ∧ q (index mem a r) = true ∧
          ∀ i, r < i → i < a.size → q (index mem a i) = false) ∨
       ((∀ i, pos ≤ i → i < a.size → q (index mem a i) = false) ∧
          r = if pos = 0 then npos else pos - 1)) := by
  simp only [size, npos] at hpos hsize
  have hd : to_difference pos = (pos : Int) := by
    unfold to_difference
    rw [if_pos (by omega)]
    omega
  obtain ⟨r, hr, h1, h2, h3, h4⟩ := find_if_reverse_loop_spec mem q
    ((a.data_ + a.size_ : Nat) : Int) (a.size_ - pos) (by omega)
  have hrun : std_find_if_reverse mem q (a.cend : Int) ((a.cbegin : Int) + to_difference pos)
      = some r := by
    simp only [std_find_if_reverse, cend, cbegin, size, hd]
    rw [if_pos (by omega), ← hr]
    congr 1
    omega
  rw [hrun]
  simp only [Option.map_some', cbegin, begin, size, index, Option.some.injEq, exists_eq_left']
  by_cases hfound : ((a.data_ : Int) + pos) < r
  · left
    have hq := h4 (by omega)
    rw [if_pos (by omega)]
    have hidx : to_size_type (r - (a.data_ : Int) - 1) = (r - (a.data_ : Int) - 1).toNat := by
      unfold to_size_type; omega
    rw [hidx]
    refine ⟨by omega, by omega, ?_, fun i hi1 hi2 => ?_⟩
    · rw [show a.data_ + (r - (a.data_ : Int) - 1).toNat = (r - 1).toNat by omega]
      exact hq
    · have := h3 ((a.data_ : Int) + i + 1) (by omega) (by omega)
      rw [show ((a.data_ : Int) + i + 1 - 1).toNat = a.data_ + i by omega] at this
      exact this
  · right
    have hr' : r = (a.data_ : Int) + pos := by omega
    refine ⟨fun i hi1 hi2 => ?_, ?_⟩
    · have := h3 ((a.data_ : Int) + i + 1) (by omega) (by omega)
      rw [show ((a.data_ : Int) + i + 1 - 1).toNat = a.data_ + i by omega] at this
      exact this
    · by_cases hp0 : pos = 0
      · rw [if_neg (by rw [hr', hp0]; simp), if_pos hp0, npos]
      · rw [if_pos (by omega), if_neg hp0]
        unfold to_size_type; omega

/-- As implemented, for an explicit `pos <= a.size()` `find_last_of` returns
the greatest index in `[pos, a.size())` whose unit occurs in `s`, and
`pos - 1` (`npos` for `pos == 0`) when there is none. -/
theorem find_last_of_as_implemented {α : Type} [DecidableEq α] (mem : Mem α)
    (a s : basic_string_view) (pos : Nat) (hpos : pos ≤ a.size) (hsize : a.size ≤ npos)
    (hdiff : pos < 2 ^ 63) :
    ∃ r, a.find_last_of mem s pos = some r ∧
      ((pos ≤ r ∧ r < a.size ∧ unit_in mem s (index mem a r) ∧
          ∀ i, r < i → i < a.size → ¬ unit_in mem s (index mem a i)) ∨
       ((∀ i, pos ≤ i → i < a.size → ¬ unit_in mem s (index mem a i)) ∧
          r = if pos = 0 then npos else pos - 1)) := by
  obtain ⟨r, hr, hcase⟩ := reverse_scan_spec mem
    (fun c => is_one_of mem c s.begin (s.end_ - s.begin)) a pos hpos hsize hdiff
  have hout : ∀ c, is_one_of mem c s.begin (s.end_ - s.begin) = false → ¬ unit_in mem s c := by
    intro c hc hin
    rw [(is_one_of_view_iff mem s c).2 hin] at hc
    cases hc
  refine ⟨r, hr, ?_⟩
  rcases hcase with ⟨h1, h2, h3, h4⟩ | ⟨h1, h2⟩
  · exact Or.inl ⟨h1, h2, (is_one_of_view_iff mem s _).1 h3, fun i hi1 hi2 => hout _ (h4 i hi1 hi2)⟩
  · exact Or.inr ⟨fun i hi1 hi2 => hout _ (h1 i hi1 hi2), h2⟩

/-- As implemented, for an explicit `pos <= a.size()` `find_last_not_of`
returns the greatest index in `[pos, a.size())` whose unit does not occur in
`s`, and `pos - 1` (`npos` for `pos == 0`) when there is none. -/
theorem find_last_not_of_as_implemented {α : Type} [DecidableEq α] (mem : Mem α)
    (a s : basic_string_view) (pos : Nat) (hpos : pos ≤ a.size) (hsize : a.size ≤ npos)
    (hdiff : pos < 2 ^ 63) :
    ∃ r, a.find_last_not_of mem s pos = some r ∧
      ((pos ≤ r ∧ r < a.size ∧ ¬ unit_in mem s (index mem a r) ∧
          ∀ i, r < i → i < a.size → unit_in mem s (index mem a i)) ∨
       ((∀ i, pos ≤ i → i < a.size → unit_in mem s (index mem a i)) ∧
          r = if pos = 0 then npos else pos - 1)) := by
  obtain ⟨r, hr, hcase⟩ := reverse_scan_spec mem (not_in_view mem s) a pos hpos hsize hdiff
  have hin : ∀ c, not_in_view mem s c = false → unit_in mem s c := by
    intro c hc
    by_contra hno
    rw [(not_in_view_iff mem s c).2 hno] at hc
    cases hc
  refine ⟨r, hr, ?_⟩
  rcases hcase with ⟨h1, h2, h3, h4⟩ | ⟨h1, h2⟩
  · exact Or.inl ⟨h1, h2, (not_in_view_iff mem s _).1 h3, fun i hi1 hi2 => hin _ (h4 i hi1 hi2)⟩
  · exact Or.inr ⟨fun i hi1 hi2 => hin _ (h1 i hi1 hi2), h2⟩

/-- With the default `pos = npos`, `rend() - pos` is `rend() + 1`: the scans
run one unit past the front of the view. With the view at address 1 and no
unit to find, `find_last_of` and `find_last_not_of` read address 0 and return
`npos - 1`; with an occurrence, `find_last_of` returns its greatest index. -/
theorem backward_scans_default_position :
    (⟨1, 11⟩ : basic_string_view).find_last_of (mem_of "Xhello worldz".toList ' ') ⟨12, 1⟩ npos
      = some (npos - 1) ∧
    (⟨1, 11⟩ : basic_string_view).find_last_not_of
      (mem_of "hhello worldhelo wrd".toList ' ') ⟨12, 8⟩ npos = some (npos - 1) ∧
    (⟨0, 11⟩ : basic_string_view).find_last_of (mem_of "hello worldl".toList ' ') ⟨11, 1⟩ npos
      = some 9 := by
  decide

/-- C15, the code at the failing inputs. On "hello world" with the set "l"
and `pos = 5`, `find_last_of` returns 9, an index above `pos`, although
index 3 holds an 'l'; with the set "z", which does not occur, and `pos = 5`
it returns 4, not `npos`. -/
theorem find_last_of_failing_inputs :
    ((⟨0, 11⟩ : basic_string_view).find_last_of (mem_of "hello worldl".toList ' ') ⟨11, 1⟩ 5
        = some 9 ∧ ¬ 9 ≤ 5 ∧
      index (mem_of "hello worldl".toList ' ') ⟨0, 11⟩ 3 = 'l') ∧
    ((⟨0, 11⟩ : basic_string_view).find_last_of (mem_of "hello worldz".toList ' ') ⟨11, 1⟩ 5
        = some 4 ∧ 4 ≠ npos ∧
      index (mem_of "hello worldz".toList ' ') ⟨0, 11⟩ 4 ≠ 'z') := by
  decide

/-- C17, the code at the failing inputs. On "hello world" with the set "d"
and `pos = 5`, `find_last_not_of` returns 9, an index above `pos`, although
index 5 holds a unit outside the set; with the set "helo wrd", which holds
every unit, and `pos = 5` it returns 4, not `npos`. -/
theorem find_last_not_of_failing_inputs :
    ((⟨0, 11⟩ : basic_string_view).find_last_not_of (mem_of "hello worldd".toList ' ')
        ⟨11, 1⟩ 5 = some 9 ∧ ¬ 9 ≤ 5 ∧
      index (mem_of "hello worldd".toList ' ') ⟨0, 11⟩ 5 ≠ 'd') ∧
    ((⟨0, 11⟩ : basic_string_view).find_last_not_of
        (mem_of "hello worldhelo wrd".toList ' ') ⟨11, 8⟩ 5 = some 4 ∧ 4 ≠ npos) := by
  decide

/-! ## The compare overloads -/

/-- C19, the code at the failing inputs. The overload taking a buffer and a
length is the two-view form on `View(ptr, n2)` and throws exactly when
`pos1 > a.size()`. The two overloads taking a view compare against `str`, a
name the header does not declare, and not against their parameter `s`:
whatever `str` denotes, their result is the same for the argument "abc" and
the argument "abd", while the two-view form on "abc" gives 0 for the first
and -1 for the second. -/
theorem compare_overloads_undeclared_str {α : Type} (tc : Mem α → Nat → Nat → Nat → Int)
    (mem : Mem α) (a : basic_string_view) (pos1 n1 ptr n2 : Nat) (str : basic_string_view) :
    (a.compare_ptr_len tc mem pos1 n1 ptr n2
        = spec_compare_sub tc mem a pos1 n1 (of_ptr_len ptr n2) ∧
      (a.compare_ptr_len tc mem pos1 n1 ptr n2 = Except.error Exception.out_of_range ↔
        pos1 > a.size)) ∧
    ((⟨0, 3⟩ : basic_string_view).compare_sub char_traits_compare
        (mem_of "abcabd".toList ' ') 0 3 ⟨0, 3⟩ str =
      (⟨0, 3⟩ : basic_string_view).compare_sub char_traits_compare
        (mem_of "abcabd".toList ' ') 0 3 ⟨3, 3⟩ str ∧
      spec_compare_sub char_traits_compare (mem_of "abcabd".toList ' ') ⟨0, 3⟩ 0 3 ⟨0, 3⟩
        = Except.ok 0 ∧
      spec_compare_sub char_traits_compare (mem_of "abcabd".toList ' ') ⟨0, 3⟩ 0 3 ⟨3, 3⟩
        = Except.ok (-1)) ∧
    ((⟨0, 3⟩ : basic_string_view).compare_sub_sub char_traits_compare
        (mem_of "abcabd".toList ' ') 0 3 ⟨0, 3⟩ 0 3 str =
      (⟨0, 3⟩ : basic_string_view).compare_sub_sub char_traits_compare
        (mem_of "abcabd".toList ' ') 0 3 ⟨3, 3⟩ 0 3 str ∧
      spec_compare_sub_sub char_traits_compare (mem_of "abcabd".toList ' ') ⟨0, 3⟩ 0 3
        ⟨0, 3⟩ 0 3 = Except.ok 0 ∧
      spec_compare_sub_sub char_traits_compare (mem_of "abcabd".toList ' ') ⟨0, 3⟩ 0 3
        ⟨3, 3⟩ 0 3 = Except.ok (-1)) := by
  refine ⟨⟨rfl, ?_⟩, ⟨rfl, rfl, rfl⟩, ⟨rfl, rfl, rfl⟩⟩
  unfold basic_string_view.compare_ptr_len substr
  by_cases h : pos1 > a.size
  · simp [h, Except.map]
  · simp [h, Except.map]

end erengy
